import Mathlib

/-!  Formal model of `d8s_ip_addresses/ip_addresses.py`.

The repository's functions are thin wrappers around Python's `ipaddress`
standard library.  This file embeds, at the level of character lists:

* the IPv4/IPv6 address parsers (`ipaddress.ip_address`, CPython 3.9 line),
* the canonical renderings (`str`, `.exploded`, `.compressed`),
* network parsing (`ipaddress.ip_network`, strict mode) and block arithmetic
  (`num_addresses`, `hosts()`, iteration),
* the repository's own functions, keeping their Python names.

Raised `ValueError` / `NotImplementedError` is modelled by `Except PyError`.
IPv6 zone/scope identifiers (`%zone`) are not modelled.
-/

namespace D8s

inductive PyError where
  | valueError
  | notImplementedError
deriving DecidableEq, Repr

/-- Decimal digit value of a character, for ASCII `'0'`-`'9'` only
(Python validates octets with `isascii() and isdigit()`). -/
def decVal? (c : Char) : Option Nat :=
  if 48 ≤ c.toNat ∧ c.toNat ≤ 57 then some (c.toNat - 48) else none

/-- Hex digit value of a character; `ipaddress._HEX_DIGITS` is
`frozenset('0123456789ABCDEFabcdef')`. -/
def hexVal? (c : Char) : Option Nat :=
  if 48 ≤ c.toNat ∧ c.toNat ≤ 57 then some (c.toNat - 48)
  else if 97 ≤ c.toNat ∧ c.toNat ≤ 102 then some (c.toNat - 87)
  else if 65 ≤ c.toNat ∧ c.toNat ≤ 70 then some (c.toNat - 55)
  else none

/-- Lowercase hex digit character (`'%x' % n` digit). -/
def hexChar (n : Nat) : Char :=
  match n with
  | 0 => '0' | 1 => '1' | 2 => '2' | 3 => '3' | 4 => '4'
  | 5 => '5' | 6 => '6' | 7 => '7' | 8 => '8' | 9 => '9'
  | 10 => 'a' | 11 => 'b' | 12 => 'c' | 13 => 'd' | 14 => 'e' | _ => 'f'

/-- Decimal digit character. -/
def decChar (n : Nat) : Char :=
  match n with
  | 0 => '0' | 1 => '1' | 2 => '2' | 3 => '3' | 4 => '4'
  | 5 => '5' | 6 => '6' | 7 => '7' | 8 => '8' | _ => '9'

/-- Python `str.split(sep)` for a one-character separator, on char lists. -/
def splitOnChar (sep : Char) : List Char → List (List Char)
  | [] => [[]]
  | c :: cs =>
    if c = sep then
      [] :: splitOnChar sep cs
    else
      match splitOnChar sep cs with
      | [] => [[c]]
      | p :: ps => (c :: p) :: ps

/-- Python `sep.join(parts)` for a one-character separator, on char lists. -/
def joinSep (sep : Char) : List (List Char) → List Char
  | [] => []
  | [p] => p
  | p :: ps => p ++ sep :: joinSep sep ps

/-- Accumulate the decimal value of a digit string. -/
def foldDec (cs : List Char) : Nat :=
  cs.foldl (fun a c => a * 10 + (decVal? c).getD 0) 0

/-- `IPv4Address._parse_octet`: nonempty, ASCII digits only, at most 3
characters, no leading zero, value at most 255. -/
def parseOctet (cs : List Char) : Option Nat :=
  if cs = [] then none
  else if ¬ cs.all (fun c => (decVal? c).isSome) then none
  else if cs.length > 3 then none
  else if cs.headD ' ' = '0' ∧ cs.length ≠ 1 then none
  else if foldDec cs > 255 then none
  else some (foldDec cs)

/-- `IPv4Address._ip_int_from_string` applied to pre-split parts:
exactly 4 octets, big-endian byte composition. -/
def parseIPv4Parts (parts : List (List Char)) : Option Nat :=
  if parts.length ≠ 4 then none
  else
    parts.foldl
      (fun acc p =>
        match acc, parseOctet p with
        | some a, some v => some (a * 256 + v)
        | _, _ => none)
      (some 0)

/-- `IPv4Address._ip_int_from_string`. -/
def parseIPv4Chars (cs : List Char) : Option Nat :=
  parseIPv4Parts (splitOnChar '.' cs)

/-- `IPv6Address._parse_hextet`: hex digits only, at most 4 of them,
nonempty (`int('', 16)` raises). -/
def parseHextet (cs : List Char) : Option Nat :=
  if ¬ cs.all (fun c => (hexVal? c).isSome) then none
  else if cs.length > 4 then none
  else if cs = [] then none
  else some (cs.foldl (fun a c => a * 16 + (hexVal? c).getD 0) 0)

/-- The hextet-folding loops of `IPv6Address._ip_int_from_string`:
`ip_int <<= 16; ip_int |= parse_hextet(part)` over `parts`. -/
def foldHextets (parts : List (List Char)) (acc : Nat) : Option Nat :=
  parts.foldl
    (fun a p =>
      match a, parseHextet p with
      | some x, some v => some (x * 65536 + v)
      | _, _ => none)
    (some acc)

/-- Indices `i` with `0 < i < len - 1` and `parts[i] = ''` — the candidate
`'::'` positions scanned by `IPv6Address._ip_int_from_string`. -/
def interiorEmpties (parts : List (List Char)) : List Nat :=
  (List.range parts.length).filter
    (fun i => 0 < i ∧ i + 1 < parts.length ∧ parts.getD i [' '] = [])

/-- `'%04x'` rendering of a 16-bit group. -/
def hex4Chars (h : Nat) : List Char :=
  [hexChar (h / 4096), hexChar (h / 256 % 16), hexChar (h / 16 % 16), hexChar (h % 16)]

/-- `'%x'` rendering of a 16-bit group (no leading zeros). -/
def hexCompressed (h : Nat) : List Char :=
  if h < 16 then [hexChar h]
  else if h < 256 then [hexChar (h / 16), hexChar (h % 16)]
  else if h < 4096 then [hexChar (h / 256), hexChar (h / 16 % 16), hexChar (h % 16)]
  else hex4Chars h

/-- The embedded-IPv4 step of `IPv6Address._ip_int_from_string`: when the
last `':'`-part contains a dot it is parsed as an IPv4 address and replaced
by its two 16-bit groups in `'%x'` form. -/
def expandEmbeddedV4 (parts : List (List Char)) : Option (List (List Char)) :=
  if '.' ∈ parts.getLastD [] then
    match parseIPv4Chars (parts.getLastD []) with
    | none => none
    | some w => some (parts.dropLast ++ [hexCompressed (w / 65536), hexCompressed (w % 65536)])
  else some parts

/-- The core of `IPv6Address._ip_int_from_string` after splitting on `':'`
and substituting an embedded IPv4 part: at most 9 parts, at most one interior
empty part (the `'::'`), leading/trailing `':'` only as part of `'::'`,
exactly 8 groups in total with at least one group elided by `'::'`. -/
def parseV6Core (parts : List (List Char)) : Option Nat :=
  if parts.length > 9 then none
  else
    match interiorEmpties parts with
    | [] =>
      if parts.length ≠ 8 then none
      else if parts.headD [] = [] then none
      else if parts.getLastD [] = [] then none
      else foldHextets parts 0
    | [skip] =>
      let hi := if parts.headD [] = [] then skip - 1 else skip
      let lo := (parts.length - skip - 1) - (if parts.getLastD [] = [] then 1 else 0)
      if parts.headD [] = [] ∧ skip - 1 ≠ 0 then none
      else if parts.getLastD [] = [] ∧ (parts.length - skip - 1) - 1 ≠ 0 then none
      else if 8 - (hi + lo) < 1 then none
      else
        match foldHextets (parts.take hi) 0 with
        | none => none
        | some hiVal =>
          foldHextets (parts.drop (parts.length - lo)) (hiVal * 2 ^ (16 * (8 - (hi + lo))))
    | _ => none

/-- `IPv6Address._ip_int_from_string` (zone ids not modelled). -/
def parseIPv6Chars (cs : List Char) : Option Nat :=
  let parts := splitOnChar ':' cs
  if parts.length < 3 then none
  else
    match expandEmbeddedV4 parts with
    | none => none
    | some parts2 => parseV6Core parts2

/-- A parsed IP address (`ipaddress.IPv4Address` / `IPv6Address`). -/
inductive IPAddr where
  | v4 (val : Nat)
  | v6 (val : Nat)
deriving DecidableEq, Repr

/-- `ipaddress.ip_address`: try IPv4, then IPv6. -/
def pyIpAddress (s : String) : Option IPAddr :=
  match parseIPv4Chars s.data with
  | some n => some (.v4 n)
  | none =>
    match parseIPv6Chars s.data with
    | some n => some (.v6 n)
    | none => none

/-- `str(int)` for one byte (0-255). -/
def octetChars (n : Nat) : List Char :=
  if n < 10 then [decChar n]
  else if n < 100 then [decChar (n / 10), decChar (n % 10)]
  else [decChar (n / 100), decChar (n / 10 % 10), decChar (n % 10)]

/-- `IPv4Address.__str__`: dotted quad of the four bytes. -/
def ipv4Chars (n : Nat) : List Char :=
  joinSep '.'
    [octetChars (n / 16777216 % 256), octetChars (n / 65536 % 256),
     octetChars (n / 256 % 256), octetChars (n % 256)]

/-- The eight 16-bit groups of an IPv6 value, most significant first. -/
def hextetsOf (n : Nat) : List Nat :=
  [n / 2 ^ 112 % 65536, n / 2 ^ 96 % 65536, n / 2 ^ 80 % 65536, n / 2 ^ 64 % 65536,
   n / 2 ^ 48 % 65536, n / 2 ^ 32 % 65536, n / 2 ^ 16 % 65536, n % 65536]

/-- The best-`'::'`-run scan of `IPv6Address._compress_hextets`: walks the
hextet strings tracking the current run of `'0'` entries (start, length) and
the best run seen (strictly longer runs win, so the leftmost longest run is
kept).  `-1` start values mirror the Python sentinel. -/
def findRun : List (List Char) → Nat → Int × Nat → Int × Nat → Int × Nat
  | [], _, best, _ => best
  | h :: t, i, best, cur =>
    if h = ['0'] then
      findRun t (i + 1)
        (if cur.2 + 1 > best.2
         then ((if cur.2 = 0 then (i : Int) else cur.1), cur.2 + 1)
         else best)
        ((if cur.2 = 0 then (i : Int) else cur.1), cur.2 + 1)
    else
      findRun t (i + 1) best (-1, 0)

/-- `IPv6Address._compress_hextets`: replace the leftmost longest run of two
or more `'0'` groups by an empty marker (the `'::'`), extending at the ends
exactly as CPython's list splice does. -/
def compressHextets (hextets : List (List Char)) : List (List Char) :=
  let best := findRun hextets 0 (-1, 0) (-1, 0)
  if best.2 > 1 then
    let s := best.1.toNat
    let e := s + best.2
    let hx := if e = hextets.length then hextets ++ [[]] else hextets
    let hx2 := hx.take s ++ [[]] ++ hx.drop e
    if s = 0 then [] :: hx2 else hx2
  else hextets

/-- `IPv6Address.__str__` / `.compressed`: `'%x'` groups, best zero run
elided to `'::'`, joined with `':'`. -/
def ipv6StrChars (n : Nat) : List Char :=
  joinSep ':' (compressHextets ((hextetsOf n).map hexCompressed))

/-- `IPv6Address.exploded`: eight `'%04x'` groups joined with `':'`. -/
def ipv6ExplodedChars (n : Nat) : List Char :=
  joinSep ':' ((hextetsOf n).map hex4Chars)

/-- `str()` of a parsed address. -/
def strOfAddr : IPAddr → String
  | .v4 n => ⟨ipv4Chars n⟩
  | .v6 n => ⟨ipv6StrChars n⟩

/-- `version` attribute. -/
def versionOf : IPAddr → Nat
  | .v4 _ => 4
  | .v6 _ => 6

/-- `address in network` for a network given as (network value, length of
the routing part): network address ≤ value ≤ broadcast address. -/
def inNetRange (val net plen maxLen : Nat) : Bool :=
  net ≤ val && val < net + 2 ^ (maxLen - plen)

/-- `_IPv4Constants._private_networks` (CPython 3.9). -/
def ipv4PrivateNets : List (Nat × Nat) :=
  [(0x00000000, 8),    -- 0.0.0.0/8
   (0x0A000000, 8),    -- 10.0.0.0/8
   (0x7F000000, 8),    -- 127.0.0.0/8
   (0xA9FE0000, 16),   -- 169.254.0.0/16
   (0xAC100000, 12),   -- 172.16.0.0/12
   (0xC0000000, 29),   -- 192.0.0.0/29
   (0xC00000AA, 31),   -- 192.0.0.170/31
   (0xC0000200, 24),   -- 192.0.2.0/24
   (0xC0A80000, 16),   -- 192.168.0.0/16
   (0xC6120000, 15),   -- 198.18.0.0/15
   (0xC6336400, 24),   -- 198.51.100.0/24
   (0xCB007100, 24),   -- 203.0.113.0/24
   (0xF0000000, 4),    -- 240.0.0.0/4
   (0xFFFFFFFF, 32)]   -- 255.255.255.255/32

/-- `_IPv6Constants._private_networks` (CPython 3.9). -/
def ipv6PrivateNets : List (Nat × Nat) :=
  [(1, 128),                          -- ::1/128
   (0, 128),                          -- ::/128
   (0xFFFF * 2 ^ 32, 96),             -- ::ffff:0:0/96
   (0x0100 * 2 ^ 112, 64),            -- 100::/64
   (0x2001 * 2 ^ 112, 23),            -- 2001::/23
   (0x2001 * 2 ^ 112 + 0x0002 * 2 ^ 96, 48),  -- 2001:2::/48
   (0x2001 * 2 ^ 112 + 0x0DB8 * 2 ^ 96, 32),  -- 2001:db8::/32
   (0x2001 * 2 ^ 112 + 0x0010 * 2 ^ 96, 28),  -- 2001:10::/28
   (0xFC00 * 2 ^ 112, 7),             -- fc00::/7
   (0xFE80 * 2 ^ 112, 10)]            -- fe80::/10

/-- `_IPv6Constants._reserved_networks` (CPython 3.9). -/
def ipv6ReservedNets : List (Nat × Nat) :=
  [(0, 8),                  -- ::/8
   (0x0100 * 2 ^ 112, 8),   -- 100::/8
   (0x0200 * 2 ^ 112, 7),   -- 200::/7
   (0x0400 * 2 ^ 112, 6),   -- 400::/6
   (0x0800 * 2 ^ 112, 5),   -- 800::/5
   (0x1000 * 2 ^ 112, 4),   -- 1000::/4
   (0x4000 * 2 ^ 112, 3),   -- 4000::/3
   (0x6000 * 2 ^ 112, 3),   -- 6000::/3
   (0x8000 * 2 ^ 112, 3),   -- 8000::/3
   (0xA000 * 2 ^ 112, 3),   -- a000::/3
   (0xC000 * 2 ^ 112, 3),   -- c000::/3
   (0xE000 * 2 ^ 112, 4),   -- e000::/4
   (0xF000 * 2 ^ 112, 5),   -- f000::/5
   (0xF800 * 2 ^ 112, 6),   -- f800::/6
   (0xFE00 * 2 ^ 112, 9)]   -- fe00::/9

/-- `is_private` (CPython 3.9: membership in the private-network lists). -/
def isPrivate : IPAddr → Bool
  | .v4 n => ipv4PrivateNets.any fun t => inNetRange n t.1 t.2 32
  | .v6 n => ipv6PrivateNets.any fun t => inNetRange n t.1 t.2 128

/-- `is_multicast`: 224.0.0.0/4 for IPv4, ff00::/8 for IPv6. -/
def isMulticast : IPAddr → Bool
  | .v4 n => inNetRange n 0xE0000000 4 32
  | .v6 n => inNetRange n (0xFF00 * 2 ^ 112) 8 128

/-- `is_reserved`: 240.0.0.0/4 for IPv4, the reserved-network list for IPv6. -/
def isReserved : IPAddr → Bool
  | .v4 n => inNetRange n 0xF0000000 4 32
  | .v6 n => ipv6ReservedNets.any fun t => inNetRange n t.1 t.2 128

/-- `_count_righthand_zero_bits`, with the bit budget as recursion fuel
(an all-zero value yields the full budget). -/
def countRightZeros : Nat → Nat → Nat
  | 0, _ => 0
  | fuel + 1, n => if n % 2 = 1 then 0 else 1 + countRightZeros fuel (n / 2)

/-- `_prefix_from_ip_int`: the routing length of a netmask value, `none`
when the value is not of the form ones-then-zeros. -/
def maskLenFromIpInt (maxLen ip : Nat) : Option Nat :=
  let tz := countRightZeros maxLen ip
  let plen := maxLen - tz
  if ip / 2 ^ tz = 2 ^ plen - 1 then some plen else none

/-- `_make_netmask` on a string argument: a pure-digit string is a routing
length (must be within the bit budget); otherwise the string is parsed as an
address and interpreted as a netmask, or failing that as a hostmask. -/
def parseMaskStr (cs : List Char) (maxLen : Nat) (parseAddr : List Char → Option Nat) :
    Option Nat :=
  match
    (if cs ≠ [] ∧ cs.all (fun c => (decVal? c).isSome) ∧ foldDec cs ≤ maxLen
     then some (foldDec cs) else none) with
  | some p => some p
  | none =>
    match parseAddr cs with
    | none => none
    | some ip =>
      match maskLenFromIpInt maxLen ip with
      | some pl => some pl
      | none => maskLenFromIpInt maxLen (Nat.xor ip (2 ^ maxLen - 1))

/-- `IPv4Network(s)` before the strict host-bits check: split on `'/'` (at
most one), parse the address, parse the mask (default 32). -/
def v4NetRaw (cs : List Char) : Option (Nat × Nat) :=
  match splitOnChar '/' cs with
  | [a] => (parseIPv4Chars a).map (fun n => (n, 32))
  | [a, m] =>
    match parseIPv4Chars a, parseMaskStr m 32 parseIPv4Chars with
    | some n, some p => some (n, p)
    | _, _ => none
  | _ => none

/-- `IPv6Network(s)` before the strict host-bits check. -/
def v6NetRaw (cs : List Char) : Option (Nat × Nat) :=
  match splitOnChar '/' cs with
  | [a] => (parseIPv6Chars a).map (fun n => (n, 128))
  | [a, m] =>
    match parseIPv6Chars a, parseMaskStr m 128 parseIPv6Chars with
    | some n, some p => some (n, p)
    | _, _ => none
  | _ => none

/-- A parsed network block (network address value and routing length). -/
inductive IPNet where
  | v4 (addr plen : Nat)
  | v6 (addr plen : Nat)
deriving DecidableEq, Repr

/-- `ipaddress.ip_network` with the default `strict=True`: try IPv4 then
IPv6; reject when host bits are set (`packed & netmask != packed`, i.e. the
value is not 0 modulo the host-bit range). -/
def pyIpNetwork (s : String) : Option IPNet :=
  match v4NetRaw s.data with
  | some (a, p) => if a % 2 ^ (32 - p) = 0 then some (.v4 a p) else none
  | none =>
    match v6NetRaw s.data with
    | some (a, p) => if a % 2 ^ (128 - p) = 0 then some (.v6 a p) else none
    | none => none

/-- `network_address`. -/
def networkAddr : IPNet → IPAddr
  | .v4 a _ => .v4 a
  | .v6 a _ => .v6 a

/-- `broadcast_address` (for IPv6, the last address of the block). -/
def broadcastAddr : IPNet → IPAddr
  | .v4 a p => .v4 (a + 2 ^ (32 - p) - 1)
  | .v6 a p => .v6 (a + 2 ^ (128 - p) - 1)

/-- `num_addresses`. -/
def numAddresses : IPNet → Nat
  | .v4 _ p => 2 ^ (32 - p)
  | .v6 _ p => 2 ^ (128 - p)

/-- `hosts()`: for IPv4, all addresses between network and broadcast
exclusively, except that /31 yields both addresses and /32 the single one;
for IPv6, all addresses except the network address (the last address is
included), except that /127 yields both addresses and /128 the single one. -/
def hostsList : IPNet → List IPAddr
  | .v4 a p =>
    if p = 32 then [.v4 a]
    else if p = 31 then [.v4 a, .v4 (a + 1)]
    else (List.range (2 ^ (32 - p) - 2)).map (fun i => .v4 (a + 1 + i))
  | .v6 a p =>
    if p = 128 then [.v6 a]
    else if p = 127 then [.v6 a, .v6 (a + 1)]
    else (List.range (2 ^ (128 - p) - 1)).map (fun i => .v6 (a + 1 + i))

/-- All addresses of a block, in order. -/
def netAddresses : IPNet → List IPAddr
  | .v4 a p => (List.range (2 ^ (32 - p))).map (fun i => .v4 (a + i))
  | .v6 a p => (List.range (2 ^ (128 - p))).map (fun i => .v6 (a + i))

/-- `address in network` (`_BaseNetwork.__contains__`): false across
versions, otherwise network address ≤ value ≤ broadcast address. -/
def addrInNet : IPAddr → IPNet → Bool
  | .v4 v, .v4 net p => net ≤ v && v < net + 2 ^ (32 - p)
  | .v6 v, .v6 net p => net ≤ v && v < net + 2 ^ (128 - p)
  | _, _ => false

/-- Lift a Python parse result into the raised-`ValueError` model. -/
def optToExcept {α : Type} (o : Option α) : Except PyError α :=
  match o with
  | none => .error .valueError
  | some a => .ok a

def ip_is_private (ip : String) : Except PyError Bool :=
  (optToExcept (pyIpAddress ip)).map isPrivate

def ip_is_multicast (ip : String) : Except PyError Bool :=
  (optToExcept (pyIpAddress ip)).map isMulticast

def ip_is_public (ip : String) : Except PyError Bool :=
  (optToExcept (pyIpAddress ip)).map (fun a => !isMulticast a && !isPrivate a)

def is_ip_address (text : String) : Bool :=
  (pyIpAddress text).isSome

def ip_is_reserved (ip : String) : Except PyError Bool :=
  (optToExcept (pyIpAddress ip)).map isReserved

def ip_version (ip : String) : Except PyError Nat :=
  (optToExcept (pyIpAddress ip)).map versionOf

def ip_network_block_first_address (network_block : String) : Except PyError String :=
  (optToExcept (pyIpNetwork network_block)).map (fun net => strOfAddr (networkAddr net))

def ip_network_block_last_address (network_block : String) : Except PyError String :=
  (optToExcept (pyIpNetwork network_block)).map (fun net => strOfAddr (broadcastAddr net))

def ip_network_block_ip_count (network_block_string : String) : Except PyError Nat :=
  (optToExcept (pyIpNetwork network_block_string)).map numAddresses

def ip_network_block_to_range (network_block_string : String) : Except PyError String :=
  (optToExcept (pyIpNetwork network_block_string)).map
    (fun net => strOfAddr (networkAddr net) ++ " - " ++ strOfAddr (broadcastAddr net))

def ip_network_block_enumerate (network_block_string : String) : Except PyError (List String) :=
  (optToExcept (pyIpNetwork network_block_string)).map
    (fun net =>
      strOfAddr (networkAddr net) ::
        ((hostsList net).map strOfAddr ++ [strOfAddr (broadcastAddr net)]))

def ip_in_network_block (ip_address : String) (network_block : String) : Except PyError Bool :=
  (ip_network_block_enumerate network_block).map (fun l => l.contains ip_address)

/-- Modelled from the spec: "implementers may substitute direct arithmetic
containment for efficiency" — the arithmetic-membership alternative to
`ip_in_network_block`'s linear scan. -/
def ip_in_network_block_arith (ip_address : String) (network_block : String) :
    Except PyError Bool :=
  match pyIpAddress ip_address, pyIpNetwork network_block with
  | some a, some net => .ok (addrInNet a net)
  | _, _ => .error .valueError

def ip_range_to_network_block (_ip_range_string : String) : Except PyError String :=
  .error .notImplementedError

def ipv6_expand (ip_v6 : String) : Except PyError String :=
  (optToExcept (parseIPv6Chars ip_v6.data)).map (fun n => ⟨ipv6ExplodedChars n⟩)

def ipv6_compress (ip_v6 : String) : Except PyError String :=
  (optToExcept (parseIPv6Chars ip_v6.data)).map (fun n => ⟨ipv6StrChars n⟩)

/-- Python `str.lstrip("0")`. -/
def lstrip0 (cs : List Char) : List Char :=
  cs.dropWhile (fun c => c = '0')

/-- Python `str.replace(old, new)`, fuel-recursive so that it reduces in
the kernel; the fuel is the length of the list and every step consumes at
least one character.  Left-to-right, non-overlapping (the empty-pattern
behaviour of Python is not needed here: both patterns that occur in the
source are nonempty, and this function returns its input for an empty
pattern). -/
def pyReplaceAux (old new : List Char) : Nat → List Char → List Char
  | _, [] => []
  | 0, l => l
  | fuel + 1, c :: cs =>
    if old = [] then c :: cs
    else if old.isPrefixOf (c :: cs) then
      new ++ pyReplaceAux old new fuel (List.drop (old.length - 1) cs)
    else
      c :: pyReplaceAux old new fuel cs

def pyReplace (old new : List Char) (l : List Char) : List Char :=
  pyReplaceAux old new l.length l

def ipv6_threatconnect_form (ip_v6 : String) : Except PyError String :=
  (optToExcept (parseIPv6Chars ip_v6.data)).map (fun n =>
    let address_sections :=
      (splitOnChar ':' (ipv6ExplodedChars n)).map
        (fun sec => lstrip0 (pyReplace ['0', '0', '0', '0'] ['x', 'x', 'x', 'x'] sec))
    ⟨pyReplace ['x', 'x', 'x', 'x'] ['0'] (joinSep ':' address_sections)⟩)

/-- Python `int()` on a string: optional sign followed by decimal digits
(surrounding whitespace and digit-group underscores are not modelled). -/
def pyInt? (cs : List Char) : Option Int :=
  let digitsVal : List Char → Option Int := fun ds =>
    if ds ≠ [] ∧ ds.all (fun c => (decVal? c).isSome) then some (foldDec ds) else none
  match cs with
  | '-' :: rest => (digitsVal rest).map (fun n => -n)
  | '+' :: rest => digitsVal rest
  | _ => digitsVal cs

def ipv4_sum (ipv4_address : String) : Except PyError Int :=
  match (splitOnChar '.' ipv4_address.data).mapM pyInt? with
  | none => .error .valueError
  | some vals => .ok (vals.foldl (· + ·) 0)

/-- Lookbehind test of the version-number pattern: the previous character,
when there is one, must not be a digit or a dot. -/
def vnLookbehindOk (prev : Option Char) : Bool :=
  match prev with
  | none => true
  | some p => !((decVal? p).isSome || p = '.')

/-- Match of `[0-9]{1,2}\.[0-2]\.` at the head of the list. -/
def vnMatchAt (l : List Char) : Bool :=
  match l with
  | c1 :: '.' :: d :: '.' :: _ =>
    (decVal? c1).isSome && (d = '0' || d = '1' || d = '2')
  | c1 :: c2 :: '.' :: d :: '.' :: _ =>
    (decVal? c1).isSome && (decVal? c2).isSome && (d = '0' || d = '1' || d = '2')
  | _ => false

/-- `re.findall(r'(?<![0-9.])[0-9]{1,2}\.[0-2]\.', s)` is nonempty: some
position matches the pattern with its lookbehind satisfied. -/
def vnScan : Option Char → List Char → Bool
  | _, [] => false
  | prev, c :: cs =>
    (vnLookbehindOk prev && vnMatchAt (c :: cs)) || vnScan (some c) cs

def hasVersionPattern (cs : List Char) : Bool :=
  vnScan none cs

def ipv4_is_possible_version_number (ipv4_address : String) : Except PyError Bool :=
  if hasVersionPattern ipv4_address.data then .ok true
  else (ipv4_sum ipv4_address).map (fun v => v < 30)

/-- The CIDR text parses (as IPv4, or failing that as IPv6) but its address
part has host bits set beyond the routing length — the inputs the strict
network parser rejects with `ValueError`. -/
def hostBitsSet (s : String) : Bool :=
  match v4NetRaw s.data with
  | some (a, p) => decide (a % 2 ^ (32 - p) ≠ 0)
  | none =>
    match v6NetRaw s.data with
    | some (a, p) => decide (a % 2 ^ (128 - p) ≠ 0)
    | none => false

/-- The spec's description of the ThreatConnect form, segment by segment:
expand the address, replace an all-zero segment (a run of four zero digits)
by the placeholder and finally by a single zero digit, and strip leading
zeros from every other segment. -/
def ipv6ThreatconnectSpec (n : Nat) : String :=
  ⟨joinSep ':' ((hextetsOf n).map (fun h => if h = 0 then ['0'] else lstrip0 (hex4Chars h)))⟩

/-- Well-formedness of a parsed address: the value fits the version. -/
def addrWF : IPAddr → Prop
  | .v4 n => n < 2 ^ 32
  | .v6 n => n < 2 ^ 128

/-- Well-formedness of a parsed network: the routing length fits the
version and the whole block fits the address space. -/
def netWF : IPNet → Prop
  | .v4 a p => p ≤ 32 ∧ a + 2 ^ (32 - p) ≤ 2 ^ 32
  | .v6 a p => p ≤ 128 ∧ a + 2 ^ (128 - p) ≤ 2 ^ 128

example : parseIPv4Chars "8.8.8.8".data = some 0x08080808 := by rfl
example : parseIPv4Chars "255.255.255.255".data = some 0xFFFFFFFF := by rfl
example : parseIPv4Chars "1.2.3.04".data = none := by rfl
example : parseIPv4Chars "1.2.3".data = none := by rfl
example : parseIPv4Chars "1.2.3.256".data = none := by rfl
example : parseIPv6Chars "::".data = some 0 := by rfl
example : parseIPv6Chars "::1".data = some 1 := by rfl
example : parseIPv6Chars "1::".data = some 0x00010000000000000000000000000000 := by rfl
example : parseIPv6Chars "2001:db8::1".data = some 0x20010db8000000000000000000000001 := by rfl
example : parseIPv6Chars "1:2:3:4:5:6:7:8".data = some 0x00010002000300040005000600070008 := by rfl
example : parseIPv6Chars "::ffff:1.2.3.4".data = some 0xffff01020304 := by rfl
example : parseIPv6Chars "1:2:3:4:5:6:7".data = none := by rfl
example : parseIPv6Chars ":1:2:3:4:5:6:7:8".data = none := by rfl
example : parseIPv6Chars "1:2:3:4:5:6:7:8:9".data = none := by rfl
example : parseIPv6Chars "::1::".data = none := by rfl
example : parseIPv6Chars "0:0:0:0:0:0:0:1".data = some 1 := by rfl
example : pyIpAddress "not-an-ip" = none := by rfl
example : pyIpAddress "8.8.8.8" = some (.v4 0x08080808) := by rfl
example : strOfAddr (.v4 0xC0A80100) = "192.168.1.0" := by rfl
example : strOfAddr (.v6 0) = "::" := by rfl
example : strOfAddr (.v6 1) = "::1" := by rfl
example : strOfAddr (.v6 0x20010db8000000000000000000000001) = "2001:db8::1" := by rfl
example : strOfAddr (.v6 0x00010000000000000000000000000000) = "1::" := by rfl
example : strOfAddr (.v6 0x00010000000000020000000000030004) = "1::2:0:0:3:4" := by rfl
example : strOfAddr (.v6 0x00010002000300040005000600070008) = "1:2:3:4:5:6:7:8" := by rfl
example : pyIpNetwork "192.168.1.0/30" = some (.v4 0xC0A80100 30) := by rfl
example : pyIpNetwork "192.168.1.1/24" = none := by rfl
example : pyIpNetwork "10.0.0.0/255.0.0.0" = some (.v4 0x0A000000 8) := by rfl
example : pyIpNetwork "10.0.0.0/0.255.255.255" = some (.v4 0x0A000000 8) := by rfl
example : ip_network_block_enumerate "192.168.1.0/30" =
    .ok ["192.168.1.0", "192.168.1.1", "192.168.1.2", "192.168.1.3"] := by rfl
example : ip_network_block_enumerate "192.168.1.0/31" =
    .ok ["192.168.1.0", "192.168.1.0", "192.168.1.1", "192.168.1.1"] := by rfl
example : ip_network_block_enumerate "::/126" =
    .ok ["::", "::1", "::2", "::3", "::3"] := by rfl
example : ip_in_network_block "0:0:0:0:0:0:0:1" "::/126" = .ok false := by rfl
example : ip_in_network_block_arith "0:0:0:0:0:0:0:1" "::/126" = .ok true := by rfl
example : ipv6_threatconnect_form "2001:db8::1" = .ok "2001:db8:0:0:0:0:0:1" := by rfl
example : ipv6_expand "2001:db8::1" = .ok "2001:0db8:0000:0000:0000:0000:0000:0001" := by rfl
example : ipv6_compress "2001:0db8:0000:0000:0000:0000:0000:0001" = .ok "2001:db8::1" := by rfl
example : ipv4_sum "8.8.8.8" = .ok 32 := by rfl
example : ipv4_is_possible_version_number "1.0.1" = .ok true := by rfl
example : ipv4_is_possible_version_number "8.8.8.8" = .ok false := by rfl
example : ipv4_is_possible_version_number "31.5.7.20" = .ok false := by rfl
example : hasVersionPattern "10.0.1.1".data = true := by rfl
example : hasVersionPattern "8.8.8.8".data = false := by rfl
example : ip_is_private "10.0.0.1" = .ok true := by rfl
example : ip_is_private "8.8.8.8" = .ok false := by rfl
example : ip_is_public "::2" = .ok true := by rfl
example : ip_is_reserved "::2" = .ok true := by rfl

/-- C5: enumerating the block "192.168.1.0/30" yields exactly the four
addresses 192.168.1.0, 192.168.1.1, 192.168.1.2, 192.168.1.3 — network and
broadcast addresses included — in this order. -/
theorem c5_enumerate_slash30 :
    ip_network_block_enumerate "192.168.1.0/30" =
      .ok ["192.168.1.0", "192.168.1.1", "192.168.1.2", "192.168.1.3"] := rfl

/-- C8: `ip_range_to_network_block` always raises `NotImplementedError`,
for every input string, and never returns a value. -/
theorem c8_range_to_network_block_unimplemented (s : String) :
    ip_range_to_network_block s = .error .notImplementedError := rfl

/-- C4: on a string that does not parse as an IP address, the
classification operations `ip_is_private`, `ip_is_multicast`,
`ip_is_public`, `ip_is_reserved` and `ip_version` all raise `ValueError`
while `is_ip_address` returns `false`; on a string that parses,
`is_ip_address` returns `true`. -/
theorem c4_parse_failure_behaviour (s : String) :
    (pyIpAddress s = none →
      ip_is_private s = .error .valueError ∧
      ip_is_multicast s = .error .valueError ∧
      ip_is_public s = .error .valueError ∧
      ip_is_reserved s = .error .valueError ∧
      ip_version s = .error .valueError ∧
      is_ip_address s = false) ∧
    (pyIpAddress s ≠ none → is_ip_address s = true) := by
  constructor
  · intro h
    simp [ip_is_private, ip_is_multicast, ip_is_public, ip_is_reserved, ip_version,
      is_ip_address, optToExcept, h, Except.map]
  · intro h
    simp [is_ip_address, Option.isSome_iff_ne_none, h]

/-- Witness for C4 at the spec's own examples: "not-an-ip" fails to parse
and every classifier raises while `is_ip_address` returns `false`;
"8.8.8.8" parses and `is_ip_address` returns `true`. -/
theorem c4_witness :
    (pyIpAddress "not-an-ip" = none ∧
      ip_is_private "not-an-ip" = .error .valueError ∧
      ip_is_multicast "not-an-ip" = .error .valueError ∧
      ip_is_public "not-an-ip" = .error .valueError ∧
      ip_is_reserved "not-an-ip" = .error .valueError ∧
      ip_version "not-an-ip" = .error .valueError ∧
      is_ip_address "not-an-ip" = false) ∧
    (pyIpAddress "8.8.8.8" ≠ none ∧ is_ip_address "8.8.8.8" = true) :=
  ⟨⟨rfl, (c4_parse_failure_behaviour "not-an-ip").1 rfl⟩,
   ⟨by decide, (c4_parse_failure_behaviour "8.8.8.8").2 (by decide)⟩⟩

/-- C9: for every string that parses as an IP address, `ip_is_public`
returns exactly not-multicast-and-not-private; moreover at "::2" the result
differs from not-reserved (the address is reserved yet public), so public
is not defined in terms of `ip_is_reserved`. -/
theorem c9_public_is_not_multicast_and_not_private :
    (∀ (s : String) (a : IPAddr), pyIpAddress s = some a →
      ip_is_public s = .ok (!isMulticast a && !isPrivate a)) ∧
    ip_is_public "::2" = .ok true ∧ ip_is_reserved "::2" = .ok true := by
  refine ⟨?_, rfl, rfl⟩
  intro s a h
  simp [ip_is_public, optToExcept, h, Except.map]

/-- Witness for C9 at "10.0.0.1". -/
theorem c9_witness :
    pyIpAddress "10.0.0.1" = some (.v4 0x0A000001) ∧
    ip_is_public "10.0.0.1" =
      .ok (!isMulticast (.v4 0x0A000001) && !isPrivate (.v4 0x0A000001)) :=
  ⟨rfl, c9_public_is_not_multicast_and_not_private.1 "10.0.0.1" (.v4 0x0A000001) rfl⟩

/-- C7: on every input whose dot-separated sections all parse as integers
(so that `ipv4_sum` succeeds), `ipv4_is_possible_version_number` returns
true exactly when the version-number pattern matches or the section sum is
below 30, and false when neither signal fires. -/
theorem c7_version_number_heuristic (s : String) (v : Int)
    (h : ipv4_sum s = .ok v) :
    ipv4_is_possible_version_number s =
      .ok (hasVersionPattern s.data || decide (v < 30)) := by
  unfold ipv4_is_possible_version_number
  by_cases hp : hasVersionPattern s.data
  · simp [hp]
  · simp [hp, h, Except.map]

/-- Witness for C7 at "8.8.8.8": the sections sum to 32, the pattern does
not match, and the heuristic answers false. -/
theorem c7_witness :
    ipv4_sum "8.8.8.8" = .ok 32 ∧
    ipv4_is_possible_version_number "8.8.8.8" =
      .ok (hasVersionPattern "8.8.8.8".data || decide ((32 : Int) < 30)) :=
  ⟨rfl, c7_version_number_heuristic "8.8.8.8" 32 rfl⟩

/-- C10: every network-block operation raises `ValueError` on a CIDR string
whose address part has host bits set beyond the routing length — the
underlying network parser is strict. -/
theorem c10_network_ops_reject_host_bits (s : String) (h : hostBitsSet s = true) :
    ip_network_block_first_address s = .error .valueError ∧
    ip_network_block_last_address s = .error .valueError ∧
    ip_network_block_ip_count s = .error .valueError ∧
    ip_network_block_to_range s = .error .valueError ∧
    ip_network_block_enumerate s = .error .valueError := by
  have hnet : pyIpNetwork s = none := by
    unfold hostBitsSet at h
    unfold pyIpNetwork
    cases hv4 : v4NetRaw s.data with
    | some ap =>
      rw [hv4] at h
      obtain ⟨a, p⟩ := ap
      simp only [decide_eq_true_eq] at h
      simp [h]
    | none =>
      rw [hv4] at h
      cases hv6 : v6NetRaw s.data with
      | some ap =>
        rw [hv6] at h
        obtain ⟨a, p⟩ := ap
        simp only [decide_eq_true_eq] at h
        simp [h]
      | none => rw [hv6] at h
  simp [ip_network_block_first_address, ip_network_block_last_address,
    ip_network_block_ip_count, ip_network_block_to_range,
    ip_network_block_enumerate, optToExcept, hnet, Except.map]

/-- Witness for C10 at "192.168.1.1/24" (host bits set below /24). -/
theorem c10_witness :
    hostBitsSet "192.168.1.1/24" = true ∧
    ip_network_block_enumerate "192.168.1.1/24" = .error .valueError :=
  ⟨rfl, (c10_network_ops_reject_host_bits "192.168.1.1/24" rfl).2.2.2.2⟩

/-- C1 as stated is false: "192.168.1.0/31" is accepted by the network
parser, yet the enumeration yields four strings — each boundary address
twice — while `ip_network_block_ip_count` reports 2. -/
theorem c1_counterexample :
    ip_network_block_enumerate "192.168.1.0/31" =
      .ok ["192.168.1.0", "192.168.1.0", "192.168.1.1", "192.168.1.1"] ∧
    ip_network_block_ip_count "192.168.1.0/31" = .ok 2 := ⟨rfl, rfl⟩

/-- C2 as stated is false: "0:0:0:0:0:0:0:1" parses to an address that lies
arithmetically inside "::/126", but the linear scan compares the raw string
against the canonical strings of the block and answers false. -/
theorem c2_counterexample :
    pyIpAddress "0:0:0:0:0:0:0:1" = some (.v6 1) ∧
    pyIpNetwork "::/126" = some (.v6 0 126) ∧
    addrInNet (.v6 1) (.v6 0 126) = true ∧
    ip_in_network_block "0:0:0:0:0:0:0:1" "::/126" = .ok false ∧
    ip_in_network_block_arith "0:0:0:0:0:0:0:1" "::/126" = .ok true :=
  ⟨rfl, rfl, rfl, rfl, rfl⟩

/-! ### Splitting and joining -/

theorem splitOnChar_ne_nil (sep : Char) (l : List Char) : splitOnChar sep l ≠ [] := by
  cases l with
  | nil => simp [splitOnChar]
  | cons c cs =>
    unfold splitOnChar
    by_cases h : c = sep
    · simp [h]
    · simp only [h, if_false]
      cases splitOnChar sep cs <;> simp

theorem splitOnChar_cons_ne (sep c : Char) (l : List Char) (h : c ≠ sep) :
    splitOnChar sep (c :: l) =
      match splitOnChar sep l with
      | [] => [[c]]
      | p :: ps => (c :: p) :: ps := by
  conv_lhs => unfold splitOnChar
  rw [if_neg h]

theorem splitOnChar_no_sep (sep : Char) (l : List Char) (h : sep ∉ l) :
    splitOnChar sep l = [l] := by
  induction l with
  | nil => rfl
  | cons c cs ih =>
    have hc : c ≠ sep := fun e => h (by simp [e])
    have hcs : sep ∉ cs := fun m => h (by simp [m])
    rw [splitOnChar_cons_ne sep c cs hc, ih hcs]

theorem splitOnChar_append (sep : Char) (p rest : List Char) (hp : sep ∉ p) :
    splitOnChar sep (p ++ sep :: rest) = p :: splitOnChar sep rest := by
  induction p with
  | nil => simp [splitOnChar]
  | cons c cs ih =>
    have hc : c ≠ sep := fun e => hp (by simp [e])
    have hcs : sep ∉ cs := fun m => hp (by simp [m])
    show splitOnChar sep (c :: (cs ++ sep :: rest)) = _
    rw [splitOnChar_cons_ne sep c _ hc, ih hcs]

theorem joinSep_cons_cons (sep : Char) (p q : List Char) (qs : List (List Char)) :
    joinSep sep (p :: q :: qs) = p ++ sep :: joinSep sep (q :: qs) := rfl

theorem splitOnChar_joinSep (sep : Char) (parts : List (List Char))
    (hne : parts ≠ []) (h : ∀ p ∈ parts, sep ∉ p) :
    splitOnChar sep (joinSep sep parts) = parts := by
  induction parts with
  | nil => exact absurd rfl hne
  | cons p ps ih =>
    cases ps with
    | nil => exact splitOnChar_no_sep sep p (h p (by simp))
    | cons q qs =>
      rw [joinSep_cons_cons, splitOnChar_append sep p _ (h p (by simp)),
        ih (by simp) (fun r hr => h r (by simp [hr]))]

theorem mem_joinSep (sep : Char) (parts : List (List Char)) (c : Char)
    (h : c ∈ joinSep sep parts) : c = sep ∨ ∃ p ∈ parts, c ∈ p := by
  induction parts with
  | nil => simp [joinSep] at h
  | cons p ps ih =>
    cases ps with
    | nil => exact Or.inr ⟨p, by simp, by simpa [joinSep] using h⟩
    | cons q qs =>
      rw [joinSep_cons_cons] at h
      rcases List.mem_append.1 h with hp | hrest
      · exact Or.inr ⟨p, by simp, hp⟩
      · rcases List.mem_cons.1 hrest with rfl | hj
        · exact Or.inl rfl
        · rcases ih hj with h1 | ⟨r, hr, hcr⟩
          · exact Or.inl h1
          · exact Or.inr ⟨r, by simp [hr], hcr⟩

/-! ### Digit characters -/

theorem decVal_decChar (n : Nat) (h : n < 10) : decVal? (decChar n) = some n := by
  interval_cases n <;> decide

theorem hexVal_hexChar (n : Nat) (h : n < 16) : hexVal? (hexChar n) = some n := by
  interval_cases n <;> decide

theorem decChar_ne_dot (n : Nat) : decChar n ≠ '.' := by
  unfold decChar; split <;> decide

theorem decChar_eq_zero_iff (n : Nat) (h : n < 10) : decChar n = '0' ↔ n = 0 := by
  interval_cases n <;> decide

theorem hexChar_ne_colon (n : Nat) : hexChar n ≠ ':' := by
  unfold hexChar; split <;> decide

theorem hexChar_ne_dot (n : Nat) : hexChar n ≠ '.' := by
  unfold hexChar; split <;> decide

theorem hexChar_ne_x (n : Nat) : hexChar n ≠ 'x' := by
  unfold hexChar; split <;> decide

theorem hexChar_eq_zero_iff (n : Nat) (h : n < 16) : hexChar n = '0' ↔ n = 0 := by
  interval_cases n <;> decide

theorem hexVal_lt (c : Char) (v : Nat) (h : hexVal? c = some v) : v < 16 := by
  unfold hexVal? at h
  split_ifs at h <;> simp_all <;> omega

/-! ### Octet and hextet round trips -/

theorem dot_not_mem_octetChars (n : Nat) : '.' ∉ octetChars n := by
  have hd : ∀ m, ¬ ('.' = decChar m) := fun m e => decChar_ne_dot m e.symm
  unfold octetChars
  split_ifs <;> simp [hd]

theorem octetChars_ne_nil (n : Nat) : octetChars n ≠ [] := by
  unfold octetChars; split_ifs <;> simp

theorem parseOctet_octetChars (n : Nat) (h : n < 256) :
    parseOctet (octetChars n) = some n := by
  have d : ∀ m, m < 10 → decVal? (decChar m) = some m := decVal_decChar
  unfold octetChars parseOctet foldDec
  by_cases h10 : n < 10
  · simp [h10, d n h10]
    omega
  · by_cases h100 : n < 100
    · have h1 : n / 10 < 10 := by omega
      have h2 : n % 10 < 10 := by omega
      have hz : ¬ decChar (n / 10) = '0' := by
        rw [decChar_eq_zero_iff _ h1]; omega
      simp [h10, h100, d _ h1, d _ h2, hz]
      omega
    · have h1 : n / 100 < 10 := by omega
      have h2 : n / 10 % 10 < 10 := by omega
      have h3 : n % 10 < 10 := by omega
      have hz : ¬ decChar (n / 100) = '0' := by
        rw [decChar_eq_zero_iff _ h1]; omega
      simp [h10, h100, d _ h1, d _ h2, d _ h3, hz]
      omega

theorem parseOctet_le (cs : List Char) (v : Nat) (h : parseOctet cs = some v) :
    v ≤ 255 := by
  unfold parseOctet at h
  split_ifs at h <;> simp_all

theorem mem_hex4Chars (c : Char) (h : Nat) (hc : c ∈ hex4Chars h) :
    ∃ m, c = hexChar m := by
  simp [hex4Chars] at hc
  rcases hc with h1 | h1 | h1 | h1 <;> exact ⟨_, h1⟩

theorem mem_hexCompressed (c : Char) (h : Nat) (hc : c ∈ hexCompressed h) :
    ∃ m, c = hexChar m := by
  unfold hexCompressed at hc
  split_ifs at hc
  · simp at hc; exact ⟨_, hc⟩
  · simp at hc; rcases hc with h1 | h1 <;> exact ⟨_, h1⟩
  · simp at hc; rcases hc with h1 | h1 | h1 <;> exact ⟨_, h1⟩
  · exact mem_hex4Chars c h hc

theorem hex4Chars_ne_nil (h : Nat) : hex4Chars h ≠ [] := by simp [hex4Chars]

theorem hexCompressed_ne_nil (h : Nat) : hexCompressed h ≠ [] := by
  unfold hexCompressed
  split_ifs <;> simp [hex4Chars]

theorem parseHextet_hex4Chars (h : Nat) (hh : h < 65536) :
    parseHextet (hex4Chars h) = some h := by
  have h1 : h / 4096 < 16 := by omega
  have h2 : h / 256 % 16 < 16 := by omega
  have h3 : h / 16 % 16 < 16 := by omega
  have h4 : h % 16 < 16 := by omega
  unfold hex4Chars parseHextet
  simp [hexVal_hexChar _ h1, hexVal_hexChar _ h2, hexVal_hexChar _ h3, hexVal_hexChar _ h4]
  omega

theorem parseHextet_hexCompressed (h : Nat) (hh : h < 65536) :
    parseHextet (hexCompressed h) = some h := by
  unfold hexCompressed
  by_cases c16 : h < 16
  · simp [c16, parseHextet, hexVal_hexChar _ c16]
  · by_cases c256 : h < 256
    · have h1 : h / 16 < 16 := by omega
      have h2 : h % 16 < 16 := by omega
      simp [c16, c256, parseHextet, hexVal_hexChar _ h1, hexVal_hexChar _ h2]
      omega
    · by_cases c4096 : h < 4096
      · have h1 : h / 256 < 16 := by omega
        have h2 : h / 16 % 16 < 16 := by omega
        have h3 : h % 16 < 16 := by omega
        simp [c16, c256, c4096, parseHextet,
          hexVal_hexChar _ h1, hexVal_hexChar _ h2, hexVal_hexChar _ h3]
        omega
      · simp [c16, c256, c4096, parseHextet_hex4Chars h hh]

/-! ### IPv4 round trip and bounds -/

theorem parseIPv4Chars_ipv4Chars (n : Nat) (h : n < 2 ^ 32) :
    parseIPv4Chars (ipv4Chars n) = some n := by
  have b1 : n / 16777216 % 256 < 256 := by omega
  have b2 : n / 65536 % 256 < 256 := by omega
  have b3 : n / 256 % 256 < 256 := by omega
  have b4 : n % 256 < 256 := by omega
  unfold parseIPv4Chars ipv4Chars
  rw [splitOnChar_joinSep '.' _ (by simp)
    (by intro p hp; simp at hp
        rcases hp with rfl | rfl | rfl | rfl <;> exact dot_not_mem_octetChars _)]
  unfold parseIPv4Parts
  simp [parseOctet_octetChars _ b1, parseOctet_octetChars _ b2,
    parseOctet_octetChars _ b3, parseOctet_octetChars _ b4]
  omega

theorem list_length_eq_four {α : Type} (l : List α) (h : l.length = 4) :
    ∃ a b c d, l = [a, b, c, d] :=
  let [a, b, c, d] := l
  ⟨a, b, c, d, rfl⟩

theorem parseIPv4Parts_lt (parts : List (List Char)) (v : Nat)
    (h : parseIPv4Parts parts = some v) : v < 2 ^ 32 := by
  unfold parseIPv4Parts at h
  split_ifs at h with hlen
  have hlen4 : parts.length = 4 := by omega
  obtain ⟨p1, p2, p3, p4, rfl⟩ := list_length_eq_four parts hlen4
  · simp only [List.foldl] at h
    cases o1 : parseOctet p1 with
    | none => simp [o1] at h
    | some v1 =>
      simp only [o1] at h
      cases o2 : parseOctet p2 with
      | none => simp [o2] at h
      | some v2 =>
        simp only [o2] at h
        cases o3 : parseOctet p3 with
        | none => simp [o3] at h
        | some v3 =>
          simp only [o3] at h
          cases o4 : parseOctet p4 with
          | none => simp [o4] at h
          | some v4 =>
            simp only [o4, Option.some.injEq] at h
            have l1 := parseOctet_le p1 v1 o1
            have l2 := parseOctet_le p2 v2 o2
            have l3 := parseOctet_le p3 v3 o3
            have l4 := parseOctet_le p4 v4 o4
            omega

theorem parseIPv4Chars_lt (cs : List Char) (v : Nat)
    (h : parseIPv4Chars cs = some v) : v < 2 ^ 32 :=
  parseIPv4Parts_lt _ v h

/-! ### Hextet folding -/

theorem foldHextets_foldl_none (ps : List (List Char)) :
    ps.foldl
      (fun a p =>
        match a, parseHextet p with
        | some x, some v => some (x * 65536 + v)
        | _, _ => none)
      none = none := by
  induction ps with
  | nil => rfl
  | cons p t ih =>
    simp only [List.foldl_cons]
    cases parseHextet p <;> exact ih

theorem foldHextets_cons (p : List Char) (ps : List (List Char)) (acc : Nat) :
    foldHextets (p :: ps) acc =
      match parseHextet p with
      | some w => foldHextets ps (acc * 65536 + w)
      | none => none := by
  unfold foldHextets
  simp only [List.foldl_cons]
  cases hp : parseHextet p
  · simp only []
    exact foldHextets_foldl_none ps
  · rfl

theorem foldHextets_map_vals (vs : List Nat) (render : Nat → List Char)
    (hr : ∀ v ∈ vs, parseHextet (render v) = some v) (acc : Nat) :
    foldHextets (vs.map render) acc =
      some (vs.foldl (fun a v => a * 65536 + v) acc) := by
  induction vs generalizing acc with
  | nil => rfl
  | cons v t ih =>
    rw [List.map_cons, foldHextets_cons, hr v (by simp)]
    exact ih (fun w hw => hr w (by simp [hw])) (acc * 65536 + v)

theorem foldl_hextet_acc (vs : List Nat) (acc : Nat) :
    vs.foldl (fun a v => a * 65536 + v) acc =
      acc * 65536 ^ vs.length + vs.foldl (fun a v => a * 65536 + v) 0 := by
  induction vs generalizing acc with
  | nil => simp
  | cons v t ih =>
    simp only [List.foldl_cons, List.length_cons, Nat.zero_mul, Nat.zero_add]
    rw [ih (acc * 65536 + v), ih v]
    ring

theorem foldl_hextet_zeros (vs : List Nat) (h : ∀ v ∈ vs, v = 0) (acc : Nat) :
    vs.foldl (fun a v => a * 65536 + v) acc = acc * 65536 ^ vs.length := by
  induction vs generalizing acc with
  | nil => simp
  | cons v t ih =>
    simp only [List.foldl_cons, List.length_cons]
    rw [h v (by simp), ih (fun w hw => h w (by simp [hw]))]
    ring

theorem hextetsOf_lt (n : Nat) : ∀ v ∈ hextetsOf n, v < 65536 := by
  simp only [hextetsOf, List.mem_cons, List.not_mem_nil, or_false]
  intro v hv
  rcases hv with rfl | rfl | rfl | rfl | rfl | rfl | rfl | rfl <;> omega

theorem foldl_hextetsOf (n : Nat) (h : n < 2 ^ 128) :
    (hextetsOf n).foldl (fun a v => a * 65536 + v) 0 = n := by
  simp only [hextetsOf, List.foldl_cons, List.foldl_nil]
  omega

/-! ### The interior-empties scan -/

theorem getD_mem {α : Type} (l : List α) (i : Nat) (d : α) (h : i < l.length) :
    l.getD i d ∈ l := by
  induction l generalizing i with
  | nil => simp at h
  | cons a t ih =>
    cases i with
    | zero => simp
    | succ j =>
      simp only [List.getD_cons_succ]
      exact List.mem_cons_of_mem a (ih j (by simpa using h))

theorem headD_mem {α : Type} (l : List α) (d : α) (h : l ≠ []) : l.headD d ∈ l := by
  cases l with
  | nil => exact absurd rfl h
  | cons a t => simp

theorem getLastD_mem {α : Type} (l : List α) (d : α) (h : l ≠ []) :
    l.getLastD d ∈ l := by
  cases l with
  | nil => exact absurd rfl h
  | cons a t =>
    rw [List.getLastD_eq_getLast?, List.getLast?_eq_getLast (a :: t) (by simp)]
    simp only [Option.getD_some]
    exact List.getLast_mem (by simp)

theorem interiorEmpties_nil (parts : List (List Char)) (h : ∀ p ∈ parts, p ≠ []) :
    interiorEmpties parts = [] := by
  unfold interiorEmpties
  rw [List.filter_eq_nil]
  intro i hi
  simp only [List.mem_range] at hi
  simp only [decide_eq_true_eq, not_and]
  intro _ h2
  exact h _ (getD_mem parts i [' '] (by omega))

/-! ### The no-skip branch of the IPv6 parser -/

theorem parseV6Core_no_skip (parts : List (List Char)) (h8 : parts.length = 8)
    (hne : ∀ p ∈ parts, p ≠ []) :
    parseV6Core parts = foldHextets parts 0 := by
  unfold parseV6Core
  rw [if_neg (by omega), interiorEmpties_nil parts hne]
  rw [if_neg (by omega)]
  rw [if_neg (hne _ (headD_mem parts [] (by intro e; rw [e] at h8; simp at h8)))]
  rw [if_neg (hne _ (getLastD_mem parts [] (by intro e; rw [e] at h8; simp at h8)))]

theorem parseIPv6Chars_exploded (n : Nat) (h : n < 2 ^ 128) :
    parseIPv6Chars (ipv6ExplodedChars n) = some n := by
  have hmem : ∀ p ∈ (hextetsOf n).map hex4Chars, ':' ∉ p := by
    intro p hp
    simp only [List.mem_map] at hp
    obtain ⟨v, _, rfl⟩ := hp
    intro hc
    obtain ⟨m, hm⟩ := mem_hex4Chars ':' v hc
    exact hexChar_ne_colon m hm.symm
  have hne : ∀ p ∈ (hextetsOf n).map hex4Chars, p ≠ [] := by
    intro p hp
    simp only [List.mem_map] at hp
    obtain ⟨v, _, rfl⟩ := hp
    exact hex4Chars_ne_nil v
  have hlen : ((hextetsOf n).map hex4Chars).length = 8 := by simp [hextetsOf]
  have hlast : ((hextetsOf n).map hex4Chars).getLastD [] = hex4Chars (n % 65536) := rfl
  have hE : expandEmbeddedV4 ((hextetsOf n).map hex4Chars) =
      some ((hextetsOf n).map hex4Chars) := by
    unfold expandEmbeddedV4
    rw [hlast, if_neg]
    intro hc
    obtain ⟨m, hm⟩ := mem_hex4Chars '.' (n % 65536) hc
    exact hexChar_ne_dot m hm.symm
  simp only [ipv6ExplodedChars, parseIPv6Chars]
  rw [splitOnChar_joinSep ':' _ (by simp [hextetsOf]) hmem]
  rw [if_neg (by omega), hE]
  show parseV6Core ((hextetsOf n).map hex4Chars) = some n
  rw [parseV6Core_no_skip _ hlen hne]
  rw [foldHextets_map_vals _ _
    (fun v hv => parseHextet_hex4Chars v (hextetsOf_lt n v hv)) 0]
  rw [foldl_hextetsOf n h]

/-! ### Value bounds of the parsers -/

theorem foldHex_lt (cs : List Char) (acc : Nat)
    (hall : ∀ c ∈ cs, (hexVal? c).isSome = true) :
    cs.foldl (fun a c => a * 16 + (hexVal? c).getD 0) acc < (acc + 1) * 16 ^ cs.length := by
  induction cs generalizing acc with
  | nil => simp
  | cons c t ih =>
    simp only [List.foldl_cons, List.length_cons]
    obtain ⟨w, hw⟩ := Option.isSome_iff_exists.1 (hall c (by simp))
    have hw16 : w < 16 := hexVal_lt c w hw
    calc t.foldl (fun a c => a * 16 + (hexVal? c).getD 0) (acc * 16 + (hexVal? c).getD 0)
        < (acc * 16 + (hexVal? c).getD 0 + 1) * 16 ^ t.length :=
          ih _ (fun x hx => hall x (by simp [hx]))
      _ ≤ ((acc + 1) * 16) * 16 ^ t.length := by
          have : acc * 16 + (hexVal? c).getD 0 + 1 ≤ (acc + 1) * 16 := by
            rw [hw]; simp only [Option.getD_some]; omega
          exact Nat.mul_le_mul_right _ this
      _ = (acc + 1) * 16 ^ (t.length + 1) := by ring

theorem parseHextet_lt (cs : List Char) (v : Nat) (h : parseHextet cs = some v) :
    v < 65536 := by
  unfold parseHextet at h
  split_ifs at h with h1 h2 h3
  simp only [Option.some.injEq] at h
  have hb := foldHex_lt cs 0 (by intro c hc; exact List.all_eq_true.1 h1 c hc)
  have hlen : 16 ^ cs.length ≤ 16 ^ 4 :=
    Nat.pow_le_pow_right (by norm_num) (by omega)
  omega

theorem foldHextets_lt (parts : List (List Char)) (acc v : Nat)
    (h : foldHextets parts acc = some v) : v < (acc + 1) * 65536 ^ parts.length := by
  induction parts generalizing acc with
  | nil =>
    unfold foldHextets at h
    simp only [List.foldl_nil, Option.some.injEq] at h
    simp [← h]
  | cons p t ih =>
    rw [foldHextets_cons] at h
    cases hp : parseHextet p with
    | none => rw [hp] at h; exact absurd h (by simp)
    | some w =>
      rw [hp] at h
      have hw := parseHextet_lt p w hp
      calc v < (acc * 65536 + w + 1) * 65536 ^ t.length := ih _ h
        _ ≤ ((acc + 1) * 65536) * 65536 ^ t.length :=
            Nat.mul_le_mul_right _ (by omega)
        _ = (acc + 1) * 65536 ^ (t.length + 1) := by ring
        _ = (acc + 1) * 65536 ^ (p :: t).length := by simp

theorem pow65536_eq (k : Nat) : (65536 : Nat) ^ k = 2 ^ (16 * k) := by
  rw [show (65536 : Nat) = 2 ^ 16 by norm_num, ← Nat.pow_mul]

theorem parseV6Core_lt (parts : List (List Char)) (v : Nat)
    (h : parseV6Core parts = some v) : v < 2 ^ 128 := by
  simp only [parseV6Core] at h
  split at h
  next => exact absurd h (by simp)
  next h9 =>
  split at h
  next =>
    -- no '::': exactly 8 parts folded from accumulator 0
    split_ifs at h with e8 eh el
    have hb := foldHextets_lt parts 0 v h
    have e8' : parts.length = 8 := by omega
    rw [e8'] at hb
    have : (0 + 1) * (65536 : Nat) ^ 8 = 2 ^ 128 := by
      rw [pow65536_eq]; norm_num
    omega
  next skip hskip =>
    generalize hHI : (if parts.headD [] = [] then skip - 1 else skip) = hi at h
    generalize hLO :
      parts.length - skip - 1 - (if parts.getLastD [] = [] then 1 else 0) = lo at h
    split_ifs at h with c1 c2 c3
    have hsum : hi + lo ≤ 7 := by omega
    cases hhi : foldHextets (parts.take hi) 0 with
    | none => rw [hhi] at h; exact absurd h (by simp)
    | some hiVal =>
      rw [hhi] at h
      have t1 : hiVal < 65536 ^ hi := by
        have hb := foldHextets_lt _ 0 hiVal hhi
        have hle : (parts.take hi).length ≤ hi := by
          simp only [List.length_take]; omega
        have hpe : (65536 : Nat) ^ (parts.take hi).length ≤ 65536 ^ hi :=
          Nat.pow_le_pow_right (by norm_num) hle
        omega
      have h216 : (2 : Nat) ^ (16 * (8 - (hi + lo))) = 65536 ^ (8 - (hi + lo)) :=
        (pow65536_eq _).symm
      rw [h216] at h
      have t2 : v < (hiVal * 65536 ^ (8 - (hi + lo)) + 1) * 65536 ^ lo := by
        have hb := foldHextets_lt _ _ v h
        have hdl : (parts.drop (parts.length - lo)).length ≤ lo := by
          simp only [List.length_drop]; omega
        have hpe : (65536 : Nat) ^ (parts.drop (parts.length - lo)).length ≤ 65536 ^ lo :=
          Nat.pow_le_pow_right (by norm_num) hdl
        calc v < (hiVal * 65536 ^ (8 - (hi + lo)) + 1) *
                  65536 ^ (parts.drop (parts.length - lo)).length := hb
          _ ≤ (hiVal * 65536 ^ (8 - (hi + lo)) + 1) * 65536 ^ lo :=
              Nat.mul_le_mul_left _ hpe
      have hs1 : (1 : Nat) ≤ 65536 ^ (8 - (hi + lo)) := Nat.one_le_pow _ _ (by norm_num)
      have e1 : hiVal * 65536 ^ (8 - (hi + lo)) + 1 ≤ 65536 ^ (8 - lo) := by
        have s1 : hiVal * 65536 ^ (8 - (hi + lo)) + 1 ≤
            (hiVal + 1) * 65536 ^ (8 - (hi + lo)) := by
          have := Nat.add_le_add_left hs1 (hiVal * 65536 ^ (8 - (hi + lo)))
          calc hiVal * 65536 ^ (8 - (hi + lo)) + 1 ≤
              hiVal * 65536 ^ (8 - (hi + lo)) + 65536 ^ (8 - (hi + lo)) := this
            _ = (hiVal + 1) * 65536 ^ (8 - (hi + lo)) := by ring
        have s2 : (hiVal + 1) * 65536 ^ (8 - (hi + lo)) ≤
            65536 ^ hi * 65536 ^ (8 - (hi + lo)) :=
          Nat.mul_le_mul_right _ t1
        rw [← Nat.pow_add, show hi + (8 - (hi + lo)) = 8 - lo by omega] at s2
        omega
      have key : (hiVal * 65536 ^ (8 - (hi + lo)) + 1) * 65536 ^ lo ≤ 2 ^ 128 := by
        calc (hiVal * 65536 ^ (8 - (hi + lo)) + 1) * 65536 ^ lo ≤
            65536 ^ (8 - lo) * 65536 ^ lo := Nat.mul_le_mul_right _ e1
          _ = 65536 ^ (8 - lo + lo) := (Nat.pow_add _ _ _).symm
          _ ≤ 65536 ^ 8 := Nat.pow_le_pow_right (by norm_num) (by omega)
          _ = 2 ^ 128 := by rw [pow65536_eq]
      omega
  next => exact absurd h (by simp)

theorem parseIPv6Chars_lt (cs : List Char) (v : Nat) (h : parseIPv6Chars cs = some v) :
    v < 2 ^ 128 := by
  simp only [parseIPv6Chars] at h
  split at h
  next => exact absurd h (by simp)
  next =>
    split at h
    next => exact absurd h (by simp)
    next parts2 heq => exact parseV6Core_lt parts2 v h

/-- C6: for every valid IPv6 literal, expanding and then compressing gives
the canonical compressed form — exactly the result of compressing the
original literal. -/
theorem c6_expand_compress_roundtrip (s : String) (n : Nat)
    (h : parseIPv6Chars s.data = some n) :
    ipv6_expand s = .ok (⟨ipv6ExplodedChars n⟩ : String) ∧
    ipv6_compress (⟨ipv6ExplodedChars n⟩ : String) = ipv6_compress s ∧
    ipv6_compress s = .ok (⟨ipv6StrChars n⟩ : String) := by
  have hn := parseIPv6Chars_lt s.data n h
  have hex : parseIPv6Chars (ipv6ExplodedChars n) = some n := parseIPv6Chars_exploded n hn
  refine ⟨?_, ?_, ?_⟩
  · simp [ipv6_expand, optToExcept, h, Except.map]
  · unfold ipv6_compress
    rw [show (String.mk (ipv6ExplodedChars n)).data = ipv6ExplodedChars n from rfl, hex, h]
  · simp [ipv6_compress, optToExcept, h, Except.map]

/-- Witness for C6 at "2001:db8::1". -/
theorem c6_witness :
    parseIPv6Chars "2001:db8::1".data = some 0x20010DB8000000000000000000000001 ∧
    (ipv6_expand "2001:db8::1" =
        .ok (⟨ipv6ExplodedChars 0x20010DB8000000000000000000000001⟩ : String) ∧
      ipv6_compress (⟨ipv6ExplodedChars 0x20010DB8000000000000000000000001⟩ : String) =
        ipv6_compress "2001:db8::1" ∧
      ipv6_compress "2001:db8::1" =
        .ok (⟨ipv6StrChars 0x20010DB8000000000000000000000001⟩ : String)) :=
  ⟨rfl, c6_expand_compress_roundtrip "2001:db8::1" _ rfl⟩

/-! ### Python string replace -/

theorem pyReplaceAux_fuel (old new : List Char) (hold : old ≠ []) :
    ∀ (fuel₁ fuel₂ : Nat) (l : List Char), l.length ≤ fuel₁ → l.length ≤ fuel₂ →
      pyReplaceAux old new fuel₁ l = pyReplaceAux old new fuel₂ l := by
  intro fuel₁
  induction fuel₁ with
  | zero =>
    intro fuel₂ l h1 _
    have hl : l = [] := by
      cases l with
      | nil => rfl
      | cons a t => simp at h1
    subst hl
    cases fuel₂ <;> rfl
  | succ f ih =>
    intro fuel₂ l h1 h2
    cases l with
    | nil => cases fuel₂ <;> rfl
    | cons c cs =>
      cases fuel₂ with
      | zero => simp at h2
      | succ g =>
        unfold pyReplaceAux
        simp only [List.length_cons] at h1 h2
        rw [if_neg hold, if_neg hold]
        by_cases hp : old.isPrefixOf (c :: cs)
        · rw [if_pos hp, if_pos hp]
          exact congrArg (fun t => new ++ t)
            (ih g (List.drop (old.length - 1) cs)
              (by simp only [List.length_drop]; omega)
              (by simp only [List.length_drop]; omega))
        · rw [if_neg hp, if_neg hp]
          exact congrArg (fun t => c :: t) (ih g cs (by omega) (by omega))

theorem pyReplace_cons (old new : List Char) (hold : old ≠ []) (c : Char) (cs : List Char) :
    pyReplace old new (c :: cs) =
      if old.isPrefixOf (c :: cs) then
        new ++ pyReplace old new (List.drop (old.length - 1) cs)
      else c :: pyReplace old new cs := by
  show pyReplaceAux old new (cs.length + 1) (c :: cs) = _
  unfold pyReplaceAux
  rw [if_neg hold]
  by_cases hp : old.isPrefixOf (c :: cs)
  · rw [if_pos hp, if_pos hp]
    exact congrArg (fun t => new ++ t)
      (pyReplaceAux_fuel old new hold cs.length (List.drop (old.length - 1) cs).length _
        (by simp only [List.length_drop]; omega) (le_refl _))
  · rw [if_neg hp, if_neg hp]
    rfl

theorem pyReplace_append_no_x (new seg rest : List Char) (h : 'x' ∉ seg) :
    pyReplace ['x', 'x', 'x', 'x'] new (seg ++ rest) =
      seg ++ pyReplace ['x', 'x', 'x', 'x'] new rest := by
  induction seg with
  | nil => simp
  | cons c cs ih =>
    have hc : c ≠ 'x' := fun e => h (by simp [e])
    have hcs : 'x' ∉ cs := fun m => h (by simp [m])
    rw [List.cons_append, pyReplace_cons _ _ (by simp) c (cs ++ rest), if_neg ?hpre]
    · rw [ih hcs]; rfl
    case hpre =>
      intro hp
      simp only [List.isPrefixOf, Bool.and_eq_true, beq_iff_eq] at hp
      exact hc hp.1.symm

theorem pyReplace_xxxx_head (new rest : List Char) :
    pyReplace ['x', 'x', 'x', 'x'] new (['x', 'x', 'x', 'x'] ++ rest) =
      new ++ pyReplace ['x', 'x', 'x', 'x'] new rest := by
  rw [show (['x', 'x', 'x', 'x'] : List Char) ++ rest =
    'x' :: ('x' :: 'x' :: 'x' :: rest) from rfl]
  rw [pyReplace_cons _ _ (by simp), if_pos ?hpre]
  · norm_num [List.drop]
  case hpre => simp [List.isPrefixOf]

theorem pyReplace_colon_cons (new rest : List Char) :
    pyReplace ['x', 'x', 'x', 'x'] new (':' :: rest) =
      ':' :: pyReplace ['x', 'x', 'x', 'x'] new rest := by
  rw [pyReplace_cons _ _ (by simp), if_neg ?hpre]
  case hpre =>
    intro hp
    simp only [List.isPrefixOf, Bool.and_eq_true, beq_iff_eq] at hp
    exact absurd hp.1 (by decide)

theorem pyReplace_xxxx_joinSep (secs : List (List Char))
    (h : ∀ sec ∈ secs, sec = ['x', 'x', 'x', 'x'] ∨ 'x' ∉ sec) :
    pyReplace ['x', 'x', 'x', 'x'] ['0'] (joinSep ':' secs) =
      joinSep ':' (secs.map (fun sec => if sec = ['x', 'x', 'x', 'x'] then ['0'] else sec)) := by
  induction secs with
  | nil => rfl
  | cons sec rest ih =>
    have hsec := h sec (by simp)
    have hrest : ∀ r ∈ rest, r = ['x', 'x', 'x', 'x'] ∨ 'x' ∉ r :=
      fun r hr => h r (by simp [hr])
    cases rest with
    | nil =>
      rcases hsec with rfl | hx
      · rfl
      · have hne : sec ≠ ['x', 'x', 'x', 'x'] := by
          intro e; rw [e] at hx; simp at hx
        show pyReplace ['x', 'x', 'x', 'x'] ['0'] sec =
          joinSep ':' [if sec = ['x', 'x', 'x', 'x'] then ['0'] else sec]
        rw [if_neg hne]
        show pyReplace ['x', 'x', 'x', 'x'] ['0'] sec = sec
        conv_lhs => rw [show sec = sec ++ [] from (List.append_nil sec).symm]
        rw [pyReplace_append_no_x _ _ _ hx]
        simp [pyReplace, pyReplaceAux]
    | cons sec2 rest2 =>
      have hIH := ih hrest
      rw [joinSep_cons_cons]
      rcases hsec with rfl | hx
      · rw [pyReplace_xxxx_head, pyReplace_colon_cons, hIH]
        simp only [List.map_cons, joinSep_cons_cons]
        simp
      · have hne : sec ≠ ['x', 'x', 'x', 'x'] := by
          intro e; rw [e] at hx; simp at hx
        rw [pyReplace_append_no_x _ _ _ hx, pyReplace_colon_cons, hIH]
        simp only [List.map_cons, joinSep_cons_cons]
        simp [hne]

theorem pyReplace_four_ne (new : List Char) (a b c d : Char)
    (hne : [a, b, c, d] ≠ ['0', '0', '0', '0']) :
    pyReplace ['0', '0', '0', '0'] new [a, b, c, d] = [a, b, c, d] := by
  rw [pyReplace_cons _ _ (by simp), if_neg ?h1]
  case h1 =>
    intro hp
    simp only [List.isPrefixOf, Bool.and_eq_true, beq_iff_eq, and_true] at hp
    obtain ⟨e1, e2, e3, e4⟩ := hp
    exact hne (by rw [← e1, ← e2, ← e3, ← e4])
  rw [pyReplace_cons _ _ (by simp), if_neg (by simp [List.isPrefixOf])]
  rw [pyReplace_cons _ _ (by simp), if_neg (by simp [List.isPrefixOf])]
  rw [pyReplace_cons _ _ (by simp), if_neg (by simp [List.isPrefixOf])]
  rfl

theorem pyReplace0000_hex4 (h : Nat) (hlt : h < 65536) :
    pyReplace ['0', '0', '0', '0'] ['x', 'x', 'x', 'x'] (hex4Chars h) =
      if h = 0 then ['x', 'x', 'x', 'x'] else hex4Chars h := by
  by_cases h0 : h = 0
  · subst h0; rfl
  · rw [if_neg h0]
    have hne : hex4Chars h ≠ ['0', '0', '0', '0'] := by
      intro e
      unfold hex4Chars at e
      simp only [List.cons.injEq, and_true] at e
      obtain ⟨e1, e2, e3, e4⟩ := e
      rw [hexChar_eq_zero_iff _ (by omega)] at e1
      rw [hexChar_eq_zero_iff _ (by omega)] at e2
      rw [hexChar_eq_zero_iff _ (by omega)] at e3
      rw [hexChar_eq_zero_iff _ (by omega)] at e4
      exact h0 (by omega)
    show pyReplace ['0', '0', '0', '0'] ['x', 'x', 'x', 'x']
      [hexChar (h / 4096), hexChar (h / 256 % 16), hexChar (h / 16 % 16), hexChar (h % 16)] = _
    rw [pyReplace_four_ne _ _ _ _ _ (by exact hne)]
    rfl

theorem x_not_mem_lstrip0_hex4 (v : Nat) : 'x' ∉ lstrip0 (hex4Chars v) := by
  intro hmem
  have hx : 'x' ∈ hex4Chars v := (List.dropWhile_sublist _).subset hmem
  obtain ⟨m, hm⟩ := mem_hex4Chars 'x' v hx
  exact hexChar_ne_x m hm.symm

theorem lstrip0_hex4_ne_xxxx (v : Nat) : lstrip0 (hex4Chars v) ≠ ['x', 'x', 'x', 'x'] := by
  intro e
  exact x_not_mem_lstrip0_hex4 v (by rw [e]; simp)

/-- C3: for every valid IPv6 literal, `ipv6_threatconnect_form` computes
exactly the spec's algorithm — expand the address, replace each run of four
zero digits (an all-zero segment) with a placeholder, strip leading zeros,
join with colons, and replace each placeholder with a single zero digit. -/
theorem c3_threatconnect_algorithm (s : String) (n : Nat)
    (h : parseIPv6Chars s.data = some n) :
    ipv6_threatconnect_form s = .ok (ipv6ThreatconnectSpec n) := by
  unfold ipv6_threatconnect_form ipv6ThreatconnectSpec
  rw [h]
  simp only [optToExcept, Except.map]
  congr 1
  have hsplit : splitOnChar ':' (ipv6ExplodedChars n) = (hextetsOf n).map hex4Chars := by
    unfold ipv6ExplodedChars
    refine splitOnChar_joinSep ':' _ (by simp [hextetsOf]) ?_
    intro p hp
    simp only [List.mem_map] at hp
    obtain ⟨v, _, rfl⟩ := hp
    intro hc
    obtain ⟨m, hm⟩ := mem_hex4Chars ':' v hc
    exact hexChar_ne_colon m hm.symm
  rw [hsplit]
  have hsections : ((hextetsOf n).map hex4Chars).map
      (fun sec => lstrip0 (pyReplace ['0', '0', '0', '0'] ['x', 'x', 'x', 'x'] sec)) =
      (hextetsOf n).map (fun v => if v = 0 then ['x', 'x', 'x', 'x'] else lstrip0 (hex4Chars v)) := by
    rw [List.map_map]
    apply List.map_congr_left
    intro v hv
    simp only [Function.comp_apply]
    rw [pyReplace0000_hex4 v (hextetsOf_lt n v hv)]
    by_cases h0 : v = 0
    · simp [h0, lstrip0]
    · simp [h0]
  rw [hsections]
  rw [pyReplace_xxxx_joinSep _ ?hsecs]
  case hsecs =>
    intro sec hsec
    simp only [List.mem_map] at hsec
    obtain ⟨v, hv, rfl⟩ := hsec
    by_cases h0 : v = 0
    · simp [h0]
    · right
      simp only [h0, if_false]
      exact x_not_mem_lstrip0_hex4 v
  rw [List.map_map]
  refine congrArg (fun l => (⟨joinSep ':' l⟩ : String)) ?_
  apply List.map_congr_left
  intro v hv
  simp only [Function.comp_apply]
  by_cases h0 : v = 0
  · simp [h0]
  · simp [h0, lstrip0_hex4_ne_xxxx v]

/-- Witness for C3 at "2001:db8::1". -/
theorem c3_witness :
    parseIPv6Chars "2001:db8::1".data = some 0x20010DB8000000000000000000000001 ∧
    ipv6_threatconnect_form "2001:db8::1" =
      .ok (ipv6ThreatconnectSpec 0x20010DB8000000000000000000000001) :=
  ⟨rfl, c3_threatconnect_algorithm "2001:db8::1" _ rfl⟩

/-! ### The best-run scan of the compressor -/

theorem drop_cons_getD {α : Type} (full : List α) (i : Nat) (x : α) (t : List α) (d : α)
    (h : full.drop i = x :: t) : full.getD i d = x ∧ full.drop (i + 1) = t := by
  induction full generalizing i with
  | nil => simp at h
  | cons a as ih =>
    cases i with
    | zero =>
      simp only [List.drop_zero] at h
      cases h
      exact ⟨rfl, by simp⟩
    | succ j =>
      simp only [List.drop_succ_cons] at h
      have := ih j h
      refine ⟨by simpa [List.getD_cons_succ] using this.1, ?_⟩
      show (a :: as).drop (j + 2) = t
      simpa [List.drop_succ_cons] using this.2

theorem findRun_spec (full : List (List Char)) :
    ∀ (l : List (List Char)) (i : Nat) (best cur : Int × Nat),
      full.drop i = l →
      (1 < best.2 → 0 ≤ best.1 ∧
        ∀ j, best.1.toNat ≤ j → j < best.1.toNat + best.2 → full.getD j [' '] = ['0']) →
      (0 < cur.2 → cur.1 = ((i - cur.2 : Nat) : Int) ∧ cur.2 ≤ i ∧
        ∀ j, i - cur.2 ≤ j → j < i → full.getD j [' '] = ['0']) →
      (1 < (findRun l i best cur).2 → 0 ≤ (findRun l i best cur).1 ∧
        ∀ j, (findRun l i best cur).1.toNat ≤ j →
          j < (findRun l i best cur).1.toNat + (findRun l i best cur).2 →
          full.getD j [' '] = ['0']) := by
  intro l
  induction l with
  | nil =>
    intro i best cur _ hbest _
    exact hbest
  | cons x t ih =>
    intro i best cur hdrop hbest hcur
    obtain ⟨hgetD, hdrop'⟩ := drop_cons_getD full i x t [' '] hdrop
    unfold findRun
    by_cases hx : x = ['0']
    · rw [if_pos hx]
      apply ih (i + 1) _ _ hdrop'
      · -- the new best is sound
        by_cases hgt : cur.2 + 1 > best.2
        · rw [if_pos hgt]
          intro h1
          simp only [gt_iff_lt] at h1
          by_cases hz : cur.2 = 0
          · simp [hz] at h1
          · have hc := hcur (by omega)
            rw [if_neg hz]
            refine ⟨by rw [hc.1]; exact Int.ofNat_nonneg _, ?_⟩
            intro j hj1 hj2
            simp only [hc.1, Int.toNat_ofNat] at hj1 hj2
            by_cases hji : j < i
            · exact hc.2.2 j (by omega) hji
            · have : j = i := by omega
              subst this
              rw [hgetD, hx]
        · rw [if_neg hgt]
          exact hbest
      · -- the new current run is sound
        intro _
        by_cases hz : cur.2 = 0
        · rw [if_pos (by omega : cur.2 = 0)]
          refine ⟨by simp [hz], by omega, ?_⟩
          intro j hj1 hj2
          have : j = i := by omega
          subst this
          rw [hgetD, hx]
        · have hc := hcur (by omega)
          rw [if_neg hz]
          refine ⟨by rw [hc.1]; congr 1; omega, by omega, ?_⟩
          intro j hj1 hj2
          by_cases hji : j < i
          · exact hc.2.2 j (by omega) hji
          · have : j = i := by omega
            subst this
            rw [hgetD, hx]
    · rw [if_neg hx]
      apply ih (i + 1) _ _ hdrop' hbest
      intro h0
      simp at h0

theorem findRun_zeros (hx : List (List Char)) (s : Int) (len : Nat)
    (h : findRun hx 0 (-1, 0) (-1, 0) = (s, len)) (hlen : 1 < len) :
    0 ≤ s ∧ (∀ j, s.toNat ≤ j → j < s.toNat + len → hx.getD j [' '] = ['0']) ∧
      s.toNat + len ≤ hx.length := by
  have hmain := findRun_spec hx hx 0 (-1, 0) (-1, 0) (by simp)
    (by intro h1; simp at h1) (by intro h0; simp at h0)
  rw [h] at hmain
  obtain ⟨h0, hz⟩ := hmain hlen
  refine ⟨h0, hz, ?_⟩
  by_contra hgt
  push_neg at hgt
  have hj := hz (s.toNat + len - 1) (by omega) (by omega)
  rw [List.getD_eq_default] at hj
  · exact absurd hj (by simp)
  · omega

theorem hexCompressed_eq_zero_iff (v : Nat) (hv : v < 65536) :
    hexCompressed v = ['0'] ↔ v = 0 := by
  constructor
  · intro e
    unfold hexCompressed at e
    split_ifs at e with c16 c256 c4096
    · simp only [List.cons.injEq, and_true] at e
      exact (hexChar_eq_zero_iff v c16).1 e
    · simp at e
    · simp at e
    · unfold hex4Chars at e
      simp at e
  · intro e
    subst e
    rfl

theorem getD_map_hexCompressed (hs : List Nat) (j : Nat) (hj : j < hs.length) :
    (hs.map hexCompressed).getD j [' '] = hexCompressed (hs.getD j 1) := by
  rw [List.getD_eq_getElem?_getD, List.getElem?_map, List.getD_eq_getElem?_getD]
  cases hget : hs[j]? with
  | none =>
    rw [List.getElem?_eq_none_iff] at hget
    omega
  | some v => simp [hget]

/-- Characterization of `compressHextets` on rendered hextets: either no run
of two or more zero groups exists and the list is unchanged, or the output
is the spliced form around a zero run `[s, s+len)`. -/
theorem compressHextets_eq (hs : List Nat) (h8 : hs.length = 8)
    (hb : ∀ v ∈ hs, v < 65536) :
    compressHextets (hs.map hexCompressed) = hs.map hexCompressed ∨
    ∃ s len, 1 < len ∧ s + len ≤ 8 ∧
      (∀ j, s ≤ j → j < s + len → hs.getD j 1 = 0) ∧
      compressHextets (hs.map hexCompressed) =
        (if s = 0 then [([] : List Char)] else (hs.take s).map hexCompressed) ++
          [([] : List Char)] ++
          (if s + len = 8 then [([] : List Char)] else (hs.drop (s + len)).map hexCompressed) := by
  have hHlen : (hs.map hexCompressed).length = 8 := by simp [h8]
  unfold compressHextets
  rcases hfr : findRun (hs.map hexCompressed) 0 (-1, 0) (-1, 0) with ⟨bs, bl⟩
  by_cases hbl : 1 < bl
  · right
    obtain ⟨hs0, hz, hle⟩ := findRun_zeros _ bs bl hfr hbl
    rw [hHlen] at hle
    have hzeros : ∀ j, bs.toNat ≤ j → j < bs.toNat + bl → hs.getD j 1 = 0 := by
      intro j hj1 hj2
      have hjlt : j < hs.length := by omega
      have hzj := hz j hj1 hj2
      rw [getD_map_hexCompressed hs j hjlt] at hzj
      exact (hexCompressed_eq_zero_iff _ (hb _ (getD_mem hs j 1 hjlt))).1 hzj
    refine ⟨bs.toNat, bl, hbl, hle, hzeros, ?_⟩
    simp only [hfr, gt_iff_lt, hbl, if_true, hHlen]
    by_cases he : bs.toNat + bl = 8
    · rw [if_pos he, if_pos he]
      have htake : (hs.map hexCompressed ++ [([] : List Char)]).take bs.toNat =
          (hs.take bs.toNat).map hexCompressed := by
        rw [List.take_append_of_le_length (by omega), List.map_take]
      have hdrop : (hs.map hexCompressed ++ [([] : List Char)]).drop (bs.toNat + bl) =
          [([] : List Char)] := by
        rw [show bs.toNat + bl = (hs.map hexCompressed).length from by omega]
        exact List.drop_left _ _
      rw [htake, hdrop]
      by_cases hs0' : bs.toNat = 0
      · rw [if_pos hs0', if_pos hs0', hs0']
        simp
      · rw [if_neg hs0', if_neg hs0']
    · rw [if_neg he, if_neg he]
      have htake : (hs.map hexCompressed).take bs.toNat = (hs.take bs.toNat).map hexCompressed :=
        (List.map_take _ _ _).symm
      have hdrop : (hs.map hexCompressed).drop (bs.toNat + bl) =
          (hs.drop (bs.toNat + bl)).map hexCompressed :=
        (List.map_drop _ _ _).symm
      rw [htake, hdrop]
      by_cases hs0' : bs.toNat = 0
      · rw [if_pos hs0', if_pos hs0', hs0']
        simp
      · rw [if_neg hs0', if_neg hs0']
  · left
    simp only [hfr, gt_iff_lt, hbl, if_false]

theorem filter_range_eq_single (n k : Nat) (p : Nat → Bool) (hk : k < n) (hpk : p k = true)
    (h : ∀ i, i < n → i ≠ k → p i = false) : (List.range n).filter p = [k] := by
  induction n with
  | zero => omega
  | succ m ih =>
    rw [List.range_succ, List.filter_append]
    by_cases hkm : k = m
    · subst hkm
      have h1 : (List.range k).filter p = [] := by
        rw [List.filter_eq_nil]
        intro a ha
        simp only [List.mem_range] at ha
        simp [h a (by omega) (by omega)]
      have h2 : [k].filter p = [k] := by simp [List.filter, hpk]
      rw [h1, h2]
      rfl
    · have hk' : k < m := by omega
      rw [ih hk' (fun i hi hik => h i (by omega) hik)]
      have h2 : [m].filter p = [] := by
        simp [List.filter, h m (by omega) (fun e => hkm e.symm)]
      rw [h2]
      simp

theorem interiorEmpties_single (parts : List (List Char)) (k : Nat)
    (hk0 : 0 < k) (hk1 : k + 1 < parts.length) (hke : parts.getD k [' '] = [])
    (hother : ∀ i, 0 < i → i + 1 < parts.length → i ≠ k → parts.getD i [' '] ≠ []) :
    interiorEmpties parts = [k] := by
  unfold interiorEmpties
  apply filter_range_eq_single parts.length k _ (by omega)
  · simp only [decide_eq_true_eq]
    exact ⟨hk0, hk1, hke⟩
  · intro i hi hik
    simp only [decide_eq_false_iff_not, not_and]
    intro h0 h1
    exact hother i h0 h1 hik

theorem headD_append {α : Type} (l1 l2 : List α) (d : α) (h : l1 ≠ []) :
    (l1 ++ l2).headD d = l1.headD d := by
  cases l1 with
  | nil => exact absurd rfl h
  | cons a t => rfl

theorem getLastD_append {α : Type} (l1 l2 : List α) (d : α) (h : l2 ≠ []) :
    (l1 ++ l2).getLastD d = l2.getLastD d := by
  rw [List.getLastD_eq_getLast?, List.getLastD_eq_getLast?, List.getLast?_append]
  cases h2 : l2.getLast? with
  | none => exact absurd (List.getLast?_eq_none_iff.1 h2) h
  | some x => simp

theorem foldHextets_mapCompressed (vs : List Nat) (hb : ∀ v ∈ vs, v < 65536) (acc : Nat) :
    foldHextets (vs.map hexCompressed) acc =
      some (vs.foldl (fun a v => a * 65536 + v) acc) :=
  foldHextets_map_vals vs hexCompressed (fun v hv => parseHextet_hexCompressed v (hb v hv)) acc

/-- Evaluation of the `'::'` branch of the IPv6 parser, with the routing
numbers `hi` and `lo` given by hypotheses. -/
theorem parseV6Core_skip_eval (parts : List (List Char)) (k hi lo : Nat)
    (h9 : ¬ parts.length > 9)
    (hIE : interiorEmpties parts = [k])
    (hc1 : ¬(parts.headD [] = [] ∧ k - 1 ≠ 0))
    (hc2 : ¬(parts.getLastD [] = [] ∧ parts.length - k - 1 - 1 ≠ 0))
    (hhi : (if parts.headD [] = [] then k - 1 else k) = hi)
    (hlo : parts.length - k - 1 - (if parts.getLastD [] = [] then 1 else 0) = lo)
    (h8 : ¬ 8 - (hi + lo) < 1) :
    parseV6Core parts =
      match foldHextets (parts.take hi) 0 with
      | none => none
      | some hiVal =>
        foldHextets (parts.drop (parts.length - lo)) (hiVal * 2 ^ (16 * (8 - (hi + lo)))) := by
  unfold parseV6Core
  rw [if_neg h9, hIE]
  show (if parts.headD [] = [] ∧ k - 1 ≠ 0 then none
    else if parts.getLastD [] = [] ∧ parts.length - k - 1 - 1 ≠ 0 then none
    else if 8 - ((if parts.headD [] = [] then k - 1 else k) +
        (parts.length - k - 1 - if parts.getLastD [] = [] then 1 else 0)) < 1 then none
    else
      match foldHextets (parts.take (if parts.headD [] = [] then k - 1 else k)) 0 with
      | none => none
      | some hiVal =>
        foldHextets
          (parts.drop (parts.length -
            (parts.length - k - 1 - if parts.getLastD [] = [] then 1 else 0)))
          (hiVal * 2 ^ (16 * (8 - ((if parts.headD [] = [] then k - 1 else k) +
            (parts.length - k - 1 - if parts.getLastD [] = [] then 1 else 0)))))) = _
  rw [if_neg hc1, if_neg hc2, hhi, hlo, if_neg h8]

/-- The value reconstructed by the `'::'` branch from the groups before and
after the gap. -/
theorem skip_value_eq (pre suf : List Nat) (hlen : pre.length + suf.length ≤ 7) :
    suf.foldl (fun a v => a * 65536 + v)
      ((pre.foldl (fun a v => a * 65536 + v) 0) *
        2 ^ (16 * (8 - (pre.length + suf.length)))) =
    (pre.foldl (fun a v => a * 65536 + v) 0) * 2 ^ (16 * (8 - pre.length)) +
      suf.foldl (fun a v => a * 65536 + v) 0 := by
  rw [foldl_hextet_acc]
  have hexp : (2 : Nat) ^ (16 * (8 - (pre.length + suf.length))) * 65536 ^ suf.length =
      2 ^ (16 * (8 - pre.length)) := by
    rw [pow65536_eq suf.length, ← pow_add]
    congr 1
    omega
  rw [Nat.mul_assoc, hexp]

theorem parseV6Core_skip_shape (pre suf : List Nat)
    (hpre : ∀ v ∈ pre, v < 65536) (hsuf : ∀ v ∈ suf, v < 65536)
    (hlen : pre.length + suf.length ≤ 7) :
    parseV6Core
      ((if pre = [] then [([] : List Char)] else pre.map hexCompressed) ++
        [([] : List Char)] ++
        (if suf = [] then [([] : List Char)] else suf.map hexCompressed)) =
      some ((pre.foldl (fun a v => a * 65536 + v) 0) * 2 ^ (16 * (8 - pre.length)) +
            suf.foldl (fun a v => a * 65536 + v) 0) := by
  by_cases hpre0 : pre = []
  · subst hpre0
    by_cases hsuf0 : suf = []
    · subst hsuf0
      decide
    · rw [if_pos rfl, if_neg hsuf0]
      have hBne : ∀ q ∈ suf.map hexCompressed, q ≠ [] := by
        intro q hq
        simp only [List.mem_map] at hq
        obtain ⟨v, _, rfl⟩ := hq
        exact hexCompressed_ne_nil v
      have hs1 : 1 ≤ suf.length := List.length_pos.2 hsuf0
      have hs7 : suf.length ≤ 7 := by simpa using hlen
      set parts := ([([] : List Char)] ++ [([] : List Char)]) ++ suf.map hexCompressed
        with hparts
      have hlenp : parts.length = suf.length + 2 := by simp [hparts]
      have hlastne : parts.getLastD [] ≠ [] := by
        rw [hparts, getLastD_append _ _ _ (by simp [hsuf0])]
        exact hBne _ (getLastD_mem _ _ (by simp [hsuf0]))
      have hIE : interiorEmpties parts = [1] := by
        apply interiorEmpties_single _ 1 (by omega) (by rw [hlenp]; omega)
          (by rw [hparts]; rfl)
        intro i h0 h1 hik
        rw [hlenp] at h1
        have h2i : 2 ≤ i := by omega
        have hgd : parts.getD i [' '] = (suf.map hexCompressed).getD (i - 2) [' '] := by
          rw [hparts, List.getD_append_right _ _ _ _ (by simp <;> omega)]
          norm_num
        rw [hgd]
        exact hBne _ (getD_mem _ _ _ (by simp <;> omega))
      rw [parseV6Core_skip_eval parts 1 0 suf.length (by omega) hIE
        (fun h => h.2 rfl)
        (fun h => hlastne h.1)
        (by rw [hparts]; rfl)
        (by rw [if_neg hlastne, hlenp]; omega)
        (by omega)]
      have htake : parts.take 0 = ([] : List Nat).map hexCompressed := rfl
      have hdrop : parts.drop (parts.length - suf.length) = suf.map hexCompressed := by
        have he : parts.length - suf.length = 2 := by rw [hlenp]; omega
        rw [he, hparts]
        rfl
      rw [htake, foldHextets_mapCompressed ([] : List Nat) (by simp) 0]
      rw [hdrop]
      show foldHextets (suf.map hexCompressed) _ = _
      rw [foldHextets_mapCompressed suf hsuf _]
      exact congrArg some (skip_value_eq [] suf (by simpa using hlen))
  · have hAne : ∀ q ∈ pre.map hexCompressed, q ≠ [] := by
      intro q hq
      simp only [List.mem_map] at hq
      obtain ⟨v, _, rfl⟩ := hq
      exact hexCompressed_ne_nil v
    have hp1 : 1 ≤ pre.length := List.length_pos.2 hpre0
    by_cases hsuf0 : suf = []
    · subst hsuf0
      rw [if_neg hpre0, if_pos rfl]
      have hp7 : pre.length ≤ 7 := by simpa using hlen
      set parts := (pre.map hexCompressed ++ [([] : List Char)]) ++ [([] : List Char)]
        with hparts
      have hlenp : parts.length = pre.length + 2 := by simp [hparts]
      have hheadne : parts.headD [] ≠ [] := by
        rw [hparts, headD_append _ _ _ (by simp [hpre0]), headD_append _ _ _ (by simp [hpre0])]
        exact hAne _ (headD_mem _ _ (by simp [hpre0]))
      have hgetLast : parts.getLastD [] = [] := by
        rw [hparts, getLastD_append _ _ _ (by simp)]
        rfl
      have hIE : interiorEmpties parts = [pre.length] := by
        apply interiorEmpties_single _ pre.length (by omega) (by rw [hlenp]; omega)
        · rw [hparts, List.getD_append _ _ _ _ (by simp <;> omega),
            List.getD_append_right _ _ _ _ (by simp)]
          simp
        · intro i h0 h1 hik
          rw [hlenp] at h1
          have hilt : i < pre.length := by omega
          have hgd : parts.getD i [' '] = (pre.map hexCompressed).getD i [' '] := by
            rw [hparts, List.getD_append _ _ _ _ (by simp <;> omega),
              List.getD_append _ _ _ _ (by simp <;> omega)]
          rw [hgd]
          exact hAne _ (getD_mem _ _ _ (by simp <;> omega))
      have hz2 : parts.length - pre.length - 1 - 1 = 0 := by rw [hlenp]; omega
      rw [parseV6Core_skip_eval parts pre.length pre.length 0 (by omega) hIE
        (fun h => hheadne h.1)
        (fun h => h.2 hz2)
        (if_neg hheadne)
        (by rw [if_pos hgetLast, hlenp]; omega)
        (by omega)]
      have htake : parts.take pre.length = pre.map hexCompressed := by
        rw [hparts, List.take_append_of_le_length (by simp),
          List.take_append_of_le_length (by simp),
          show pre.length = (pre.map hexCompressed).length from (List.length_map _ _).symm,
          List.take_length]
      have hdrop : parts.drop (parts.length - 0) = ([] : List Nat).map hexCompressed := by
        rw [Nat.sub_zero, List.drop_length]
        rfl
      rw [htake, foldHextets_mapCompressed pre hpre 0]
      rw [hdrop]
      show foldHextets (([] : List Nat).map hexCompressed) _ = _
      rw [foldHextets_mapCompressed ([] : List Nat) (by simp) _]
      exact congrArg some (skip_value_eq pre [] (by simpa using hlen))
    · rw [if_neg hpre0, if_neg hsuf0]
      have hBne : ∀ q ∈ suf.map hexCompressed, q ≠ [] := by
        intro q hq
        simp only [List.mem_map] at hq
        obtain ⟨v, _, rfl⟩ := hq
        exact hexCompressed_ne_nil v
      have hs1 : 1 ≤ suf.length := List.length_pos.2 hsuf0
      set parts := (pre.map hexCompressed ++ [([] : List Char)]) ++ suf.map hexCompressed
        with hparts
      have hlenp : parts.length = pre.length + 1 + suf.length := by
        simp [hparts]
        omega
      have hheadne : parts.headD [] ≠ [] := by
        rw [hparts, headD_append _ _ _ (by simp [hpre0]), headD_append _ _ _ (by simp [hpre0])]
        exact hAne _ (headD_mem _ _ (by simp [hpre0]))
      have hlastne : parts.getLastD [] ≠ [] := by
        rw [hparts, getLastD_append _ _ _ (by simp [hsuf0])]
        exact hBne _ (getLastD_mem _ _ (by simp [hsuf0]))
      have hIE : interiorEmpties parts = [pre.length] := by
        apply interiorEmpties_single _ pre.length (by omega) (by rw [hlenp]; omega)
        · rw [hparts, List.getD_append _ _ _ _ (by simp <;> omega),
            List.getD_append_right _ _ _ _ (by simp)]
          simp
        · intro i h0 h1 hik
          rw [hlenp] at h1
          by_cases hilt : i < pre.length
          · have hgd : parts.getD i [' '] = (pre.map hexCompressed).getD i [' '] := by
              rw [hparts, List.getD_append _ _ _ _ (by simp <;> omega),
                List.getD_append _ _ _ _ (by simp <;> omega)]
            rw [hgd]
            exact hAne _ (getD_mem _ _ _ (by simp <;> omega))
          · have hige : pre.length + 1 ≤ i := by omega
            have hgd : parts.getD i [' '] =
                (suf.map hexCompressed).getD (i - (pre.length + 1)) [' '] := by
              rw [hparts, List.getD_append_right _ _ _ _ (by simp <;> omega)]
              norm_num
            rw [hgd]
            exact hBne _ (getD_mem _ _ _ (by simp <;> omega))
      rw [parseV6Core_skip_eval parts pre.length pre.length suf.length (by omega) hIE
        (fun h => hheadne h.1)
        (fun h => hlastne h.1)
        (if_neg hheadne)
        (by rw [if_neg hlastne, hlenp]; omega)
        (by omega)]
      have htake : parts.take pre.length = pre.map hexCompressed := by
        rw [hparts, List.take_append_of_le_length (by simp),
          List.take_append_of_le_length (by simp),
          show pre.length = (pre.map hexCompressed).length from (List.length_map _ _).symm,
          List.take_length]
      have hdrop : parts.drop (parts.length - suf.length) = suf.map hexCompressed := by
        have he : parts.length - suf.length =
            (pre.map hexCompressed ++ [([] : List Char)]).length := by
          simp [hlenp]
        rw [hparts, he]
        exact List.drop_left _ _
      rw [htake, foldHextets_mapCompressed pre hpre 0]
      rw [hdrop]
      show foldHextets (suf.map hexCompressed) _ = _
      rw [foldHextets_mapCompressed suf hsuf _]
      exact congrArg some (skip_value_eq pre suf hlen)

theorem mem_getD_index {α : Type} (l : List α) (v : α) (d : α) (hv : v ∈ l) :
    ∃ j, j < l.length ∧ l.getD j d = v := by
  induction l with
  | nil => simp at hv
  | cons a t ih =>
    rcases List.mem_cons.1 hv with rfl | hm
    · exact ⟨0, by simp, rfl⟩
    · obtain ⟨j, hj, he⟩ := ih hm
      exact ⟨j + 1, by simp; omega, by simpa [List.getD_cons_succ] using he⟩

theorem getD_take (l : List Nat) (m j : Nat) (hj : j < m) :
    (l.take m).getD j 1 = l.getD j 1 := by
  induction l generalizing m j with
  | nil => simp
  | cons a t ih =>
    cases m with
    | zero => omega
    | succ m' =>
      cases j with
      | zero => simp
      | succ j' => simpa [List.getD_cons_succ] using ih m' j' (by omega)

theorem getD_drop (l : List Nat) (s j : Nat) :
    (l.drop s).getD j 1 = l.getD (s + j) 1 := by
  induction l generalizing s with
  | nil => simp
  | cons a t ih =>
    cases s with
    | zero => simp
    | succ s' =>
      simp only [List.drop_succ_cons]
      rw [ih s']
      show t.getD (s' + j) 1 = (a :: t).getD (s' + 1 + j) 1
      rw [show s' + 1 + j = (s' + j) + 1 from by omega, List.getD_cons_succ]

theorem colon_not_mem_hexCompressed (v : Nat) : ':' ∉ hexCompressed v := by
  intro hc
  obtain ⟨m, hm⟩ := mem_hexCompressed ':' v hc
  exact hexChar_ne_colon m hm.symm

theorem dot_not_mem_hexCompressed (v : Nat) : '.' ∉ hexCompressed v := by
  intro hc
  obtain ⟨m, hm⟩ := mem_hexCompressed '.' v hc
  exact hexChar_ne_dot m hm.symm

/-- The canonical compressed string of an IPv6 value parses back to the
value: the `'::'` elision made by the compressor is undone by the parser. -/
theorem parseIPv6Chars_compressed (n : Nat) (h : n < 2 ^ 128) :
    parseIPv6Chars (ipv6StrChars n) = some n := by
  have hlen8 : (hextetsOf n).length = 8 := rfl
  have hbnd := hextetsOf_lt n
  rcases compressHextets_eq (hextetsOf n) hlen8 hbnd with
    hunch | ⟨s, len, hlen1, hle8, hzero, hshape⟩
  · -- no run of zeros was elided: all eight groups are present
    unfold ipv6StrChars
    rw [hunch]
    have hmem : ∀ p ∈ (hextetsOf n).map hexCompressed, ':' ∉ p := by
      intro p hp
      simp only [List.mem_map] at hp
      obtain ⟨v, _, rfl⟩ := hp
      exact colon_not_mem_hexCompressed v
    have hne : ∀ p ∈ (hextetsOf n).map hexCompressed, p ≠ [] := by
      intro p hp
      simp only [List.mem_map] at hp
      obtain ⟨v, _, rfl⟩ := hp
      exact hexCompressed_ne_nil v
    have hlenm : ((hextetsOf n).map hexCompressed).length = 8 := by simp [hextetsOf]
    have hlast : ((hextetsOf n).map hexCompressed).getLastD [] =
        hexCompressed (n % 65536) := rfl
    have hE : expandEmbeddedV4 ((hextetsOf n).map hexCompressed) =
        some ((hextetsOf n).map hexCompressed) := by
      unfold expandEmbeddedV4
      rw [hlast, if_neg (dot_not_mem_hexCompressed _)]
    simp only [parseIPv6Chars]
    rw [splitOnChar_joinSep ':' _ (by simp [hextetsOf]) hmem]
    rw [if_neg (by omega), hE]
    show parseV6Core ((hextetsOf n).map hexCompressed) = some n
    rw [parseV6Core_no_skip _ hlenm hne, foldHextets_mapCompressed _ hbnd 0,
      foldl_hextetsOf n h]
  · -- a zero run [s, s+len) was elided
    unfold ipv6StrChars
    rw [hshape]
    have hpre_len : ((hextetsOf n).take s).length = s := by
      rw [List.length_take, hlen8]; omega
    have hsuf_len : ((hextetsOf n).drop (s + len)).length = 8 - (s + len) := by
      rw [List.length_drop, hlen8]
    have hpre_iff : ((hextetsOf n).take s = []) ↔ (s = 0) := by
      constructor
      · intro e; rw [e] at hpre_len; simpa using hpre_len.symm
      · intro e; rw [e]; simp
    have hsuf_iff : ((hextetsOf n).drop (s + len) = []) ↔ (s + len = 8) := by
      constructor
      · intro e; rw [e] at hsuf_len; simp at hsuf_len; omega
      · intro e
        apply List.drop_eq_nil_of_le
        rw [hlen8]; omega
    rw [if_congr hpre_iff.symm rfl rfl, if_congr hsuf_iff.symm rfl rfl]
    have hcolonfree : ∀ p ∈
        ((if (hextetsOf n).take s = [] then [([] : List Char)]
          else ((hextetsOf n).take s).map hexCompressed) ++ [([] : List Char)] ++
         (if (hextetsOf n).drop (s + len) = [] then [([] : List Char)]
          else ((hextetsOf n).drop (s + len)).map hexCompressed)), ':' ∉ p := by
      intro p hp
      simp only [List.mem_append] at hp
      rcases hp with (hp | hp) | hp
      · split at hp
        · simp at hp; subst hp; simp
        · simp only [List.mem_map] at hp
          obtain ⟨v, _, rfl⟩ := hp
          exact colon_not_mem_hexCompressed v
      · simp at hp; subst hp; simp
      · split at hp
        · simp at hp; subst hp; simp
        · simp only [List.mem_map] at hp
          obtain ⟨v, _, rfl⟩ := hp
          exact colon_not_mem_hexCompressed v
    have hlp : 3 ≤
        ((if (hextetsOf n).take s = [] then [([] : List Char)]
          else ((hextetsOf n).take s).map hexCompressed) ++ [([] : List Char)] ++
         (if (hextetsOf n).drop (s + len) = [] then [([] : List Char)]
          else ((hextetsOf n).drop (s + len)).map hexCompressed)).length := by
      by_cases h1 : (hextetsOf n).take s = [] <;> by_cases h2 : (hextetsOf n).drop (s + len) = []
      · simp [h1, h2]
      · have := List.length_pos.2 h2
        simp [h1, h2]
        omega
      · have := List.length_pos.2 h1
        simp [h1, h2]
        omega
      · have := List.length_pos.2 h1
        have := List.length_pos.2 h2
        simp [h1, h2]
        omega
    have hlastnodot : '.' ∉
        ((if (hextetsOf n).take s = [] then [([] : List Char)]
          else ((hextetsOf n).take s).map hexCompressed) ++ [([] : List Char)] ++
         (if (hextetsOf n).drop (s + len) = [] then [([] : List Char)]
          else ((hextetsOf n).drop (s + len)).map hexCompressed)).getLastD [] := by
      rw [getLastD_append]
      · by_cases h2 : (hextetsOf n).drop (s + len) = []
        · rw [if_pos h2]; simp
        · rw [if_neg h2]
          have hm := getLastD_mem (((hextetsOf n).drop (s + len)).map hexCompressed) []
            (by simpa using h2)
          simp only [List.mem_map] at hm
          obtain ⟨v, _, he⟩ := hm
          rw [← he]
          exact dot_not_mem_hexCompressed v
      · split
        · decide
        · next hns => simpa using hns
    have hE : expandEmbeddedV4
        ((if (hextetsOf n).take s = [] then [([] : List Char)]
          else ((hextetsOf n).take s).map hexCompressed) ++ [([] : List Char)] ++
         (if (hextetsOf n).drop (s + len) = [] then [([] : List Char)]
          else ((hextetsOf n).drop (s + len)).map hexCompressed)) =
        some
        ((if (hextetsOf n).take s = [] then [([] : List Char)]
          else ((hextetsOf n).take s).map hexCompressed) ++ [([] : List Char)] ++
         (if (hextetsOf n).drop (s + len) = [] then [([] : List Char)]
          else ((hextetsOf n).drop (s + len)).map hexCompressed)) := by
      unfold expandEmbeddedV4
      rw [if_neg hlastnodot]
    simp only [parseIPv6Chars]
    rw [splitOnChar_joinSep ':' _ (by simp) hcolonfree]
    rw [if_neg (by omega), hE]
    show parseV6Core _ = some n
    rw [parseV6Core_skip_shape ((hextetsOf n).take s) ((hextetsOf n).drop (s + len))
      (fun v hv => hbnd v (List.take_subset _ _ hv))
      (fun v hv => hbnd v (List.drop_subset _ _ hv))
      (by rw [hpre_len, hsuf_len]; omega)]
    congr 1
    -- the reconstructed value equals n
    have hmidzero : ∀ v ∈ ((hextetsOf n).drop s).take len, v = 0 := by
      intro v hv
      obtain ⟨j, hj, he⟩ := mem_getD_index _ v 1 hv
      have hjlen : j < len := by
        rw [List.length_take] at hj; omega
      rw [getD_take _ _ _ hjlen, getD_drop] at he
      rw [← he]
      exact hzero (s + j) (by omega) (by omega)
    have hfold := foldl_hextetsOf n h
    have hdec : hextetsOf n =
        (hextetsOf n).take s ++ (((hextetsOf n).drop s).take len ++
          (hextetsOf n).drop (s + len)) := by
      have hdd : (hextetsOf n).drop (s + len) = ((hextetsOf n).drop s).drop len := by
        rw [List.drop_drop]
      rw [hdd, List.take_append_drop len ((hextetsOf n).drop s),
        List.take_append_drop s]
    rw [hdec, List.foldl_append, List.foldl_append,
      foldl_hextet_zeros _ hmidzero, foldl_hextet_acc] at hfold
    have hmidlen : (((hextetsOf n).drop s).take len).length = len := by
      rw [List.length_take, List.length_drop, hlen8]
      omega
    rw [hmidlen, hsuf_len] at hfold
    rw [hpre_len]
    have hpow : ((hextetsOf n).take s).foldl (fun a v => a * 65536 + v) 0 * 65536 ^ len *
        65536 ^ (8 - (s + len)) =
        ((hextetsOf n).take s).foldl (fun a v => a * 65536 + v) 0 * 2 ^ (16 * (8 - s)) := by
      rw [Nat.mul_assoc, ← pow_add,
        show len + (8 - (s + len)) = 8 - s from by omega, pow65536_eq]
    rw [hpow] at hfold
    exact hfold

/-! ### Round trip through `ip_address` and well-formedness -/

theorem dot_not_mem_ipv6StrChars (n : Nat) : '.' ∉ ipv6StrChars n := by
  intro hd
  unfold ipv6StrChars at hd
  rcases mem_joinSep ':' _ '.' hd with he | ⟨p, hp, hmem⟩
  · exact absurd he (by decide)
  · rcases compressHextets_eq (hextetsOf n) rfl (hextetsOf_lt n) with
      hunch | ⟨s, len, _, _, _, hshape⟩
    · rw [hunch] at hp
      simp only [List.mem_map] at hp
      obtain ⟨v, _, rfl⟩ := hp
      exact dot_not_mem_hexCompressed v hmem
    · rw [hshape] at hp
      simp only [List.mem_append] at hp
      rcases hp with (hp | hp) | hp
      · split at hp
        · simp at hp; subst hp; simp at hmem
        · simp only [List.mem_map] at hp
          obtain ⟨v, _, rfl⟩ := hp
          exact dot_not_mem_hexCompressed v hmem
      · simp at hp; subst hp; simp at hmem
      · split at hp
        · simp at hp; subst hp; simp at hmem
        · simp only [List.mem_map] at hp
          obtain ⟨v, _, rfl⟩ := hp
          exact dot_not_mem_hexCompressed v hmem

theorem parseIPv4Chars_ipv6Str (n : Nat) : parseIPv4Chars (ipv6StrChars n) = none := by
  unfold parseIPv4Chars
  rw [splitOnChar_no_sep '.' _ (dot_not_mem_ipv6StrChars n)]
  rfl

theorem pyIpAddress_strOfAddr (a : IPAddr) (hwf : addrWF a) :
    pyIpAddress (strOfAddr a) = some a := by
  cases a with
  | v4 m =>
    unfold pyIpAddress strOfAddr
    rw [show (String.mk (ipv4Chars m)).data = ipv4Chars m from rfl,
      parseIPv4Chars_ipv4Chars m hwf]
  | v6 m =>
    unfold pyIpAddress strOfAddr
    rw [show (String.mk (ipv6StrChars m)).data = ipv6StrChars m from rfl,
      parseIPv4Chars_ipv6Str m, parseIPv6Chars_compressed m hwf]

theorem pyIpAddress_wf (s : String) (a : IPAddr) (h : pyIpAddress s = some a) :
    addrWF a := by
  unfold pyIpAddress at h
  split at h
  · next m hm =>
    simp only [Option.some.injEq] at h
    subst h
    exact parseIPv4Chars_lt _ m hm
  · split at h
    · next m hm =>
      simp only [Option.some.injEq] at h
      subst h
      exact parseIPv6Chars_lt _ m hm
    · exact absurd h (by simp)

theorem maskLenFromIpInt_le (maxLen ip p : Nat) (h : maskLenFromIpInt maxLen ip = some p) :
    p ≤ maxLen := by
  simp only [maskLenFromIpInt] at h
  split at h
  · simp only [Option.some.injEq] at h
    omega
  · exact absurd h (by simp)

theorem parseMaskStr_le (cs : List Char) (maxLen : Nat) (f : List Char → Option Nat)
    (p : Nat) (h : parseMaskStr cs maxLen f = some p) : p ≤ maxLen := by
  unfold parseMaskStr at h
  split at h
  · next p' heq =>
    split_ifs at heq with hd
    obtain ⟨-, -, hle⟩ := hd
    simp only [Option.some.injEq] at heq h
    omega
  · next heq =>
    split at h
    · exact absurd h (by simp)
    · next ip hip =>
      split at h
      · next pl hpl =>
        simp only [Option.some.injEq] at h
        subst h
        exact maskLenFromIpInt_le _ _ _ hpl
      · exact maskLenFromIpInt_le _ _ _ h

theorem v4NetRaw_bounds (cs : List Char) (a p : Nat) (h : v4NetRaw cs = some (a, p)) :
    a < 2 ^ 32 ∧ p ≤ 32 := by
  unfold v4NetRaw at h
  split at h
  · next a' heq =>
    cases hp' : parseIPv4Chars a' with
    | none => rw [hp'] at h; exact absurd h (by simp)
    | some n =>
      rw [hp'] at h
      simp only [Option.map_some', Option.some.injEq, Prod.mk.injEq] at h
      obtain ⟨rfl, rfl⟩ := h
      exact ⟨parseIPv4Chars_lt _ _ hp', le_refl _⟩
  · next a' m heq =>
    cases hp' : parseIPv4Chars a' with
    | none => rw [hp'] at h; exact absurd h (by simp)
    | some n =>
      cases hm : parseMaskStr m 32 parseIPv4Chars with
      | none => rw [hp', hm] at h; exact absurd h (by simp)
      | some pl =>
        rw [hp', hm] at h
        simp only [Option.some.injEq, Prod.mk.injEq] at h
        obtain ⟨rfl, rfl⟩ := h
        exact ⟨parseIPv4Chars_lt _ _ hp', parseMaskStr_le _ _ _ _ hm⟩
  · exact absurd h (by simp)

theorem v6NetRaw_bounds (cs : List Char) (a p : Nat) (h : v6NetRaw cs = some (a, p)) :
    a < 2 ^ 128 ∧ p ≤ 128 := by
  unfold v6NetRaw at h
  split at h
  · next a' heq =>
    cases hp' : parseIPv6Chars a' with
    | none => rw [hp'] at h; exact absurd h (by simp)
    | some n =>
      rw [hp'] at h
      simp only [Option.map_some', Option.some.injEq, Prod.mk.injEq] at h
      obtain ⟨rfl, rfl⟩ := h
      exact ⟨parseIPv6Chars_lt _ _ hp', le_refl _⟩
  · next a' m heq =>
    cases hp' : parseIPv6Chars a' with
    | none => rw [hp'] at h; exact absurd h (by simp)
    | some n =>
      cases hm : parseMaskStr m 128 parseIPv6Chars with
      | none => rw [hp', hm] at h; exact absurd h (by simp)
      | some pl =>
        rw [hp', hm] at h
        simp only [Option.some.injEq, Prod.mk.injEq] at h
        obtain ⟨rfl, rfl⟩ := h
        exact ⟨parseIPv6Chars_lt _ _ hp', parseMaskStr_le _ _ _ _ hm⟩
  · exact absurd h (by simp)

theorem aligned_block_fits (a p maxLen : Nat) (hp : p ≤ maxLen) (ha : a < 2 ^ maxLen)
    (hmod : a % 2 ^ (maxLen - p) = 0) : a + 2 ^ (maxLen - p) ≤ 2 ^ maxLen := by
  obtain ⟨q, hq⟩ := Nat.dvd_of_mod_eq_zero hmod
  have hMpos : 0 < 2 ^ (maxLen - p) := by positivity
  have hsplit : (2 : Nat) ^ maxLen = 2 ^ (maxLen - p) * 2 ^ p := by
    rw [← pow_add]
    congr 1
    omega
  have hqlt : q < 2 ^ p := by
    by_contra hge
    push_neg at hge
    have : 2 ^ (maxLen - p) * 2 ^ p ≤ 2 ^ (maxLen - p) * q :=
      Nat.mul_le_mul_left _ hge
    rw [← hsplit] at this
    omega
  have : 2 ^ (maxLen - p) * (q + 1) ≤ 2 ^ (maxLen - p) * 2 ^ p :=
    Nat.mul_le_mul_left _ (by omega)
  rw [← hsplit] at this
  calc a + 2 ^ (maxLen - p) = 2 ^ (maxLen - p) * (q + 1) := by rw [hq]; ring
    _ ≤ 2 ^ maxLen := this

theorem pyIpNetwork_wf (s : String) (net : IPNet) (h : pyIpNetwork s = some net) :
    netWF net := by
  unfold pyIpNetwork at h
  split at h
  · next a p hv4 =>
    split_ifs at h with hmod
    simp only [Option.some.injEq] at h
    subst h
    obtain ⟨ha, hp⟩ := v4NetRaw_bounds _ a p hv4
    exact ⟨hp, aligned_block_fits a p 32 hp ha hmod⟩
  · split at h
    · next a p hv6 =>
      split_ifs at h with hmod
      simp only [Option.some.injEq] at h
      subst h
      obtain ⟨ha, hp⟩ := v6NetRaw_bounds _ a p hv6
      exact ⟨hp, aligned_block_fits a p 128 hp ha hmod⟩
    · exact absurd h (by simp)

theorem netAddresses_wf (net : IPNet) (hwf : netWF net) :
    ∀ w ∈ netAddresses net, addrWF w := by
  cases net with
  | v4 a p =>
    intro w hw
    simp only [netAddresses, List.mem_map, List.mem_range] at hw
    obtain ⟨i, hi, rfl⟩ := hw
    show a + i < 2 ^ 32
    have := hwf.2
    omega
  | v6 a p =>
    intro w hw
    simp only [netAddresses, List.mem_map, List.mem_range] at hw
    obtain ⟨i, hi, rfl⟩ := hw
    show a + i < 2 ^ 128
    have := hwf.2
    omega

theorem mem_netAddresses_iff (net : IPNet) (w : IPAddr) :
    w ∈ netAddresses net ↔ addrInNet w net = true := by
  cases net with
  | v4 a p =>
    cases w with
    | v4 m =>
      simp only [netAddresses, List.mem_map, List.mem_range, addrInNet,
        IPAddr.v4.injEq, Bool.and_eq_true, decide_eq_true_eq]
      constructor
      · rintro ⟨i, hi, rfl⟩
        omega
      · rintro ⟨h1, h2⟩
        exact ⟨m - a, by omega, by omega⟩
    | v6 m =>
      simp [netAddresses, addrInNet]
  | v6 a p =>
    cases w with
    | v4 m =>
      simp [netAddresses, addrInNet]
    | v6 m =>
      simp only [netAddresses, List.mem_map, List.mem_range, addrInNet,
        IPAddr.v6.injEq, Bool.and_eq_true, decide_eq_true_eq]
      constructor
      · rintro ⟨i, hi, rfl⟩
        omega
      · rintro ⟨h1, h2⟩
        exact ⟨m - a, by omega, by omega⟩

/-- The list produced by `ip_network_block_enumerate` (network address,
hosts, broadcast address) renders exactly the addresses of the block: every
element is `str` of a block address and conversely. Duplicates are allowed
here; only the set of elements is characterized. -/
theorem mem_enumList_iff (net : IPNet) (hwf : netWF net) (x : String) :
    x ∈ (strOfAddr (networkAddr net) ::
        ((hostsList net).map strOfAddr ++ [strOfAddr (broadcastAddr net)])) ↔
    ∃ w ∈ netAddresses net, x = strOfAddr w := by
  cases net with
  | v4 a p =>
    obtain ⟨hp32, hbound⟩ := hwf
    have hMpos : 0 < 2 ^ (32 - p) := by positivity
    constructor
    · intro hx
      simp only [List.mem_cons, List.mem_append, List.mem_map,
        List.mem_singleton, List.mem_nil_iff, or_false] at hx
      rcases hx with rfl | ⟨⟨w, hw, rfl⟩ | rfl⟩
      · exact ⟨.v4 a, (mem_netAddresses_iff _ _).2 (by
          simp only [addrInNet, Bool.and_eq_true, decide_eq_true_eq]
          omega), rfl⟩
      · refine ⟨w, (mem_netAddresses_iff _ _).2 ?_, rfl⟩
        by_cases h32 : p = 32
        · subst h32
          rw [show hostsList (.v4 a 32) = [.v4 a] from rfl,
            List.mem_singleton] at hw
          subst hw
          simp only [addrInNet, Bool.and_eq_true, decide_eq_true_eq]
          omega
        · by_cases h31 : p = 31
          · subst h31
            rw [show hostsList (.v4 a 31) = [.v4 a, .v4 (a + 1)] from rfl,
              List.mem_cons, List.mem_singleton] at hw
            have h2 : (2 : Nat) ^ (32 - 31) = 2 := by norm_num
            rcases hw with rfl | rfl <;>
              · simp only [addrInNet, Bool.and_eq_true, decide_eq_true_eq]
                omega
          · simp only [hostsList, if_neg h32, if_neg h31, List.mem_map,
              List.mem_range] at hw
            obtain ⟨i, hi, rfl⟩ := hw
            simp only [addrInNet, Bool.and_eq_true, decide_eq_true_eq]
            omega
      · exact ⟨.v4 (a + 2 ^ (32 - p) - 1), (mem_netAddresses_iff _ _).2 (by
          simp only [addrInNet, Bool.and_eq_true, decide_eq_true_eq]
          omega), rfl⟩
    · rintro ⟨w, hw, rfl⟩
      rw [mem_netAddresses_iff] at hw
      cases w with
      | v6 m => simp [addrInNet] at hw
      | v4 m =>
        simp only [addrInNet, Bool.and_eq_true, decide_eq_true_eq] at hw
        obtain ⟨hle, hlt⟩ := hw
        simp only [List.mem_cons, List.mem_append, List.mem_map,
          List.mem_singleton, List.mem_nil_iff, or_false]
        by_cases hm0 : m = a
        · subst hm0
          exact Or.inl rfl
        · by_cases hmb : m = a + 2 ^ (32 - p) - 1
          · subst hmb
            exact Or.inr (Or.inr rfl)
          · refine Or.inr (Or.inl ⟨.v4 m, ?_, rfl⟩)
            by_cases h32 : p = 32
            · subst h32
              have h1 : (2 : Nat) ^ (32 - 32) = 1 := by norm_num
              omega
            · by_cases h31 : p = 31
              · subst h31
                have h1 : (2 : Nat) ^ (32 - 31) = 2 := by norm_num
                omega
              · have hM4 : 4 ≤ 2 ^ (32 - p) := by
                  calc (4 : Nat) = 2 ^ 2 := by norm_num
                    _ ≤ 2 ^ (32 - p) := Nat.pow_le_pow_right (by norm_num) (by omega)
                simp only [hostsList, if_neg h32, if_neg h31, List.mem_map,
                  List.mem_range]
                refine ⟨m - a - 1, by omega, ?_⟩
                have heq : a + 1 + (m - a - 1) = m := by omega
                rw [heq]
  | v6 a p =>
    obtain ⟨hp128, hbound⟩ := hwf
    have hMpos : 0 < 2 ^ (128 - p) := by positivity
    constructor
    · intro hx
      simp only [List.mem_cons, List.mem_append, List.mem_map,
        List.mem_singleton, List.mem_nil_iff, or_false] at hx
      rcases hx with rfl | ⟨⟨w, hw, rfl⟩ | rfl⟩
      · exact ⟨.v6 a, (mem_netAddresses_iff _ _).2 (by
          simp only [addrInNet, Bool.and_eq_true, decide_eq_true_eq]
          omega), rfl⟩
      · refine ⟨w, (mem_netAddresses_iff _ _).2 ?_, rfl⟩
        by_cases h128 : p = 128
        · subst h128
          rw [show hostsList (.v6 a 128) = [.v6 a] from rfl,
            List.mem_singleton] at hw
          subst hw
          simp only [addrInNet, Bool.and_eq_true, decide_eq_true_eq]
          omega
        · by_cases h127 : p = 127
          · subst h127
            rw [show hostsList (.v6 a 127) = [.v6 a, .v6 (a + 1)] from rfl,
              List.mem_cons, List.mem_singleton] at hw
            have h2 : (2 : Nat) ^ (128 - 127) = 2 := by norm_num
            rcases hw with rfl | rfl <;>
              · simp only [addrInNet, Bool.and_eq_true, decide_eq_true_eq]
                omega
          · simp only [hostsList, if_neg h128, if_neg h127, List.mem_map,
              List.mem_range] at hw
            obtain ⟨i, hi, rfl⟩ := hw
            simp only [addrInNet, Bool.and_eq_true, decide_eq_true_eq]
            omega
      · exact ⟨.v6 (a + 2 ^ (128 - p) - 1), (mem_netAddresses_iff _ _).2 (by
          simp only [addrInNet, Bool.and_eq_true, decide_eq_true_eq]
          omega), rfl⟩
    · rintro ⟨w, hw, rfl⟩
      rw [mem_netAddresses_iff] at hw
      cases w with
      | v4 m => simp [addrInNet] at hw
      | v6 m =>
        simp only [addrInNet, Bool.and_eq_true, decide_eq_true_eq] at hw
        obtain ⟨hle, hlt⟩ := hw
        simp only [List.mem_cons, List.mem_append, List.mem_map,
          List.mem_singleton, List.mem_nil_iff, or_false]
        by_cases hm0 : m = a
        · subst hm0
          exact Or.inl rfl
        · refine Or.inr (Or.inl ⟨.v6 m, ?_, rfl⟩)
          by_cases h128 : p = 128
          · subst h128
            have h1 : (2 : Nat) ^ (128 - 128) = 1 := by norm_num
            omega
          · by_cases h127 : p = 127
            · subst h127
              rw [show hostsList (.v6 a 127) = [.v6 a, .v6 (a + 1)] from rfl,
                List.mem_cons, List.mem_singleton]
              have h2 : (2 : Nat) ^ (128 - 127) = 2 := by norm_num
              have hm1 : m = a + 1 := by omega
              exact Or.inr (by rw [hm1])
            · simp only [hostsList, if_neg h128, if_neg h127, List.mem_map,
                List.mem_range]
              refine ⟨m - a - 1, by omega, ?_⟩
              have heq : a + 1 + (m - a - 1) = m := by omega
              rw [heq]

/-- C2 (amended): when the queried address string is the canonical rendering
of its parsed value (`str(ip_address(a)) == a`), the linear scan of
`ip_in_network_block` agrees with direct arithmetic containment: both return
exactly `addrInNet v net` for the parsed address and network. -/
theorem c2_scan_equals_arithmetic (a b : String) (v : IPAddr) (net : IPNet)
    (ha : pyIpAddress a = some v) (hc : strOfAddr v = a)
    (hb : pyIpNetwork b = some net) :
    ip_in_network_block a b = .ok (addrInNet v net) ∧
    ip_in_network_block_arith a b = .ok (addrInNet v net) := by
  have hnwf := pyIpNetwork_wf b net hb
  constructor
  · unfold ip_in_network_block ip_network_block_enumerate
    rw [hb]
    simp only [optToExcept, Except.map]
    refine congrArg Except.ok ?_
    have hmem : a ∈ (strOfAddr (networkAddr net) ::
        ((hostsList net).map strOfAddr ++ [strOfAddr (broadcastAddr net)])) ↔
        addrInNet v net = true := by
      rw [mem_enumList_iff net hnwf]
      constructor
      · rintro ⟨w, hw, heq⟩
        have hwwf := netAddresses_wf net hnwf w hw
        have hrt := pyIpAddress_strOfAddr w hwwf
        rw [heq, hrt] at ha
        simp only [Option.some.injEq] at ha
        subst ha
        exact (mem_netAddresses_iff net w).1 hw
      · intro hin
        exact ⟨v, (mem_netAddresses_iff net v).2 hin, hc.symm⟩
    cases hcase : addrInNet v net with
    | true => exact List.elem_iff.2 (hmem.2 hcase)
    | false =>
      simp only [List.contains, List.elem_eq_true_of_mem]
      rw [Bool.eq_false_iff]
      intro helem
      have := hmem.1 (List.elem_iff.1 helem)
      rw [hcase] at this
      exact Bool.false_ne_true this
  · unfold ip_in_network_block_arith
    rw [ha, hb]

/-- Witness for `c2_scan_equals_arithmetic` at `"10.0.0.1"` in
`"10.0.0.0/30"`. -/
theorem c2_witness :
    ip_in_network_block "10.0.0.1" "10.0.0.0/30" =
      .ok (addrInNet (.v4 0x0A000001) (.v4 0x0A000000 30)) ∧
    ip_in_network_block_arith "10.0.0.1" "10.0.0.0/30" =
      .ok (addrInNet (.v4 0x0A000001) (.v4 0x0A000000 30)) :=
  c2_scan_equals_arithmetic "10.0.0.1" "10.0.0.0/30"
    (.v4 0x0A000001) (.v4 0x0A000000 30) (by rfl) (by rfl) (by rfl)

theorem range_decomp (m : Nat) (h4 : 4 ≤ m) :
    List.range m = (0 :: (List.range (m - 2)).map Nat.succ) ++ [m - 1] := by
  conv_lhs => rw [show m = (m - 1) + 1 from by omega]
  rw [List.range_succ]
  congr 1
  conv_lhs => rw [show m - 1 = (m - 2) + 1 from by omega]
  exact List.range_succ_eq_map _

/-- For an IPv4 block with routing length at most 30, the enumerated list
(network, hosts, broadcast) is exactly the rendering of the block's
addresses in order. -/
theorem enumList_eq_netAddresses_v4 (a p : Nat) (hle : p ≤ 30) :
    strOfAddr (networkAddr (.v4 a p)) ::
      ((hostsList (.v4 a p)).map strOfAddr ++
        [strOfAddr (broadcastAddr (.v4 a p))]) =
    (netAddresses (.v4 a p)).map strOfAddr := by
  have hM4 : 4 ≤ 2 ^ (32 - p) := by
    calc (4 : Nat) = 2 ^ 2 := by norm_num
      _ ≤ 2 ^ (32 - p) := Nat.pow_le_pow_right (by norm_num) (by omega)
  have hhost : hostsList (.v4 a p) =
      (List.range (2 ^ (32 - p) - 2)).map (fun i => IPAddr.v4 (a + 1 + i)) := by
    simp only [hostsList, if_neg (by omega : ¬ p = 32), if_neg (by omega : ¬ p = 31)]
  rw [hhost]
  show strOfAddr (IPAddr.v4 a) ::
      (((List.range (2 ^ (32 - p) - 2)).map (fun i => IPAddr.v4 (a + 1 + i))).map
          strOfAddr ++
        [strOfAddr (IPAddr.v4 (a + 2 ^ (32 - p) - 1))]) =
    ((List.range (2 ^ (32 - p))).map (fun i => IPAddr.v4 (a + i))).map strOfAddr
  rw [range_decomp (2 ^ (32 - p)) hM4]
  simp only [List.map_cons, List.map_append, List.map_map, List.map_nil,
    List.cons_append, List.nil_append, Function.comp]
  refine congrArg₂ List.cons (by norm_num) (congrArg₂ (· ++ ·) ?_ ?_)
  · refine List.map_congr_left ?_
    intro i _
    exact congrArg (fun t => strOfAddr (IPAddr.v4 t)) (by omega)
  · exact congrArg (fun t => [strOfAddr (IPAddr.v4 t)]) (by omega)

/-- C1 (amended): for a CIDR string accepted as an IPv4 network with routing
length at most 30, `ip_network_block_enumerate` yields exactly the rendering
of every address of the block in order, with no duplicates, and its length
equals `ip_network_block_ip_count`. (For /31, /32 and for IPv6 blocks the
enumeration duplicates boundary addresses, so the claim fails there.) -/
theorem c1_enumerate_exact_low_prefix (s : String) (a p : Nat)
    (hp : pyIpNetwork s = some (.v4 a p)) (hle : p ≤ 30) :
    ip_network_block_enumerate s = .ok ((netAddresses (.v4 a p)).map strOfAddr) ∧
    ((netAddresses (.v4 a p)).map strOfAddr).Nodup ∧
    ip_network_block_ip_count s =
      .ok ((netAddresses (.v4 a p)).map strOfAddr).length := by
  have hwf := pyIpNetwork_wf s _ hp
  refine ⟨?_, ?_, ?_⟩
  · unfold ip_network_block_enumerate
    rw [hp]
    simp only [optToExcept, Except.map]
    exact congrArg Except.ok (enumList_eq_netAddresses_v4 a p hle)
  · have hnd : (netAddresses (.v4 a p)).Nodup := by
      simp only [netAddresses]
      refine (List.nodup_range _).map ?_
      intro i j hij
      simp only [IPAddr.v4.injEq] at hij
      omega
    refine hnd.map_on ?_
    intro x hx y hy hxy
    have hx' := pyIpAddress_strOfAddr x (netAddresses_wf _ hwf x hx)
    have hy' := pyIpAddress_strOfAddr y (netAddresses_wf _ hwf y hy)
    rw [hxy] at hx'
    have h2 : (some y : Option IPAddr) = some x := hy'.symm.trans hx'
    simp only [Option.some.injEq] at h2
    exact h2.symm
  · unfold ip_network_block_ip_count
    rw [hp]
    simp only [optToExcept, Except.map]
    refine congrArg Except.ok ?_
    simp [numAddresses, netAddresses]

/-- Witness for `c1_enumerate_exact_low_prefix` at `"192.168.1.0/30"`. -/
theorem c1_witness :
    ip_network_block_enumerate "192.168.1.0/30" =
      .ok ((netAddresses (.v4 0xC0A80100 30)).map strOfAddr) ∧
    ((netAddresses (.v4 0xC0A80100 30)).map strOfAddr).Nodup ∧
    ip_network_block_ip_count "192.168.1.0/30" =
      .ok ((netAddresses (.v4 0xC0A80100 30)).map strOfAddr).length :=
  c1_enumerate_exact_low_prefix "192.168.1.0/30" 0xC0A80100 30 (by rfl) (by decide)

end D8s
